import Mathlib

/-!
# ESP8266 serial protocol engine

A shallow embedding of the protocol helpers of `src/ESP8266.cpp`
(`read16`, `write16`, `sendCommand`, `sendString`, `getResponse`,
`receiveOk`, `receiveString`, `readBuffer`) and of the catalog operations
built on them, over an explicit model of the two external
collaborators the code talks to: the serial port (`uart->readable()`,
`uart->getc()`, `uart->putc()`) and the millisecond clock
(`Pokitto::Core::getTime()`).

## Environment model

* A byte is a `Fin 256`.
* `World.rx` is the inbound queue: the bytes `readable()` counts and
  `getc()` removes, oldest first.  `World.tx` is everything written
  with `putc`, oldest first.
* `World.clock` is the schedule of the clock samples still to come.  A
  call of `getTime()` takes the next `Tick`: it returns the `time` of the tick
  (as a 32-bit value) and the bytes in `arrivals`, which came in since
  the previous sample, become readable.  Bytes therefore become
  readable only at clock samples; between two samples the inbound queue
  changes only by the reads of the code itself.
* `getc()` on an empty queue and `getTime()` on an exhausted schedule
  have no result (`none`): the first is outside the contract of the port,
  the second means that the given finite schedule does not determine
  the run.  Every loop that polls the clock takes one tick per
  iteration, so the length of the schedule bounds its iterations.
-/

namespace ESP8266

/-! ## Data model -/

abbrev Byte := Fin 256

/-- Conversion of an integer to `std::uint8_t`. -/
def toByte (n : Nat) : Byte := ⟨n % 256, Nat.mod_lt n (by decide)⟩

/-- One clock sample: the value the clock shows and the bytes that came
in on the serial line since the previous sample. -/
structure Tick where
  time : Nat
  arrivals : List Byte
deriving DecidableEq

/-- State of the serial port and of the clock. -/
structure World where
  rx : List Byte
  tx : List Byte
  clock : List Tick
deriving DecidableEq

/-- The enumeration `Commands : std::uint16_t` of `ESP8266.h`, in declaration order. -/
inductive Commands where
  | nop
  | restart
  | checkVersion
  | getVersion
  | getVersionString
  | setBaudRate
  | eraseConfig
  | setWifiMode
  | getWifiMode
  | joinAP
  | getStatus
  | leaveAP
  | getSSID
  | getRSSI
  | getLocalIP
  | getGatewayIP
  | getSubnetMask
  | getMac
  | setStationIP
  | scanNetworks
  | scanComplete
  | getNetworkInfo
  | setSoftAPConfig
  | getSoftAPConfig
  | setSoftAPIP
  | getSoftAPIP
  | softAPdisconnect
  | softAPgetStationNum
  | getSoftAPClient
  | createTCP
  | sendTCP
  | availableTCP
  | readTCP
  | closeTCP
  | isConnectedTCP
  | createUDP
  | sendUDP
  | listenUDP
  | availableUDP
  | closeUDP
  | readUDP
  | getRemoteInfoUDP
  | createHTTP
  | sendGetHTTP
  | getStringHTTP
  | readDataHTTP
  | getSizeHTTP
  | closeHTTP
  | setFingerPrintHTTP
  | setInSecureHTTP
  | addHeaderHTTP
  | getResponseHeaderCountHTTP
  | getResponseHeaderHTTP
  | sendPostHttp
  | espNowInit
  | espNowAddPeer
  | espNowRemovePeer
  | espNowSend
  | espNowReceive
  | espNowDeInit
deriving DecidableEq

/-- The value of an enumerator, `static_cast<std::uint16_t>(command)`:
`nop = 1`, and every later enumerator is one more than the one declared
before it. -/
def Commands.code (c : Commands) : Nat := c.toCtorIdx + 1

/-- The enumeration `Response : std::uint16_t`.  `getResponse` casts an
arbitrary 16-bit word to it, so a value is the underlying word. -/
structure Response where
  val : Nat
deriving DecidableEq

def Response.Ok : Response := ⟨1⟩
def Response.Error : Response := ⟨2⟩
def Response.String : Response := ⟨3⟩
def Response.Data : Response := ⟨4⟩

/-! ## The serial port and the clock -/

/-- The call `uart->readable()`: the number of bytes waiting. -/
def readable (w : World) : Nat := w.rx.length

/-- The call `uart->getc()`: takes the oldest waiting byte. -/
def getc (w : World) : Option (Byte × World) :=
  match w.rx with
  | [] => none
  | b :: rest => some (b, { w with rx := rest })

/-- The call `uart->putc(c)`: writes the low 8 bits of `c`. -/
def putc (c : Nat) (w : World) : World :=
  { w with tx := w.tx ++ [toByte c] }

/-- The call `Pokitto::Core::getTime()`, returning a `std::uint32_t`. -/
def getTime (w : World) : Option (Nat × World) :=
  match w.clock with
  | [] => none
  | t :: later => some (t.time % 4294967296, { w with rx := w.rx ++ t.arrivals, clock := later })

/-- The subtraction `now - start` on `std::uint32_t`. -/
def elapsed (now start : Nat) : Nat := (now + 4294967296 - start % 4294967296) % 4294967296

/-! ## FrameCodec: `read16`, `write16` -/

/-- The method `ESP8266::read16`. -/
def read16 (w : World) : Option (Nat × World) :=
  match getc w with
  | none => none
  | some (c0, w1) =>
    let low := c0.val % 65536
    match getc w1 with
    | none => none
    | some (c1, w2) =>
      let high := c1.val % 65536
      some (((high <<< 8) ||| low) % 65536, w2)

/-- The method `ESP8266::write16`. -/
def write16 (value : Nat) (w : World) : World :=
  let value := value % 65536
  let low := (value &&& 0xFF) % 256
  let high := ((value >>> 8) &&& 0xFF) % 256
  putc high (putc low w)

/-- A loopback line: everything written so far becomes readable, in the
order it was written. -/
def loopback (w : World) : World :=
  { w with rx := w.rx ++ w.tx, tx := [] }

/-! ## ProtocolEngine -/

/-- The flush loop of `sendCommand`: `while(uart->readable()) uart->getc();`. -/
def flushLoop : Nat → World → Option World
  | 0, w => if readable w ≠ 0 then none else some w
  | fuel + 1, w =>
    if readable w ≠ 0 then
      match getc w with
      | none => none
      | some (_, w1) => flushLoop fuel w1
    else some w

/-- The method `ESP8266::sendCommand`. -/
def sendCommand (command : Commands) (w : World) : Option World :=
  match flushLoop (readable w) w with
  | none => none
  | some w1 => some (write16 command.code w1)

/-- The polling loop of `getResponse`; `start` is the clock value read at
call entry.  One iteration takes one clock sample. -/
def getResponseLoop (timeout start : Nat) : Nat → World → Option (Response × World)
  | 0, _ => none
  | fuel + 1, w =>
    match getTime w with
    | none => none
    | some (now, w1) =>
      if elapsed now start ≥ timeout then some (Response.Error, w1)
      else if readable w1 > 0 then
        match read16 w1 with
        | none => none
        | some (v, w2) => some (⟨v⟩, w2)
      else getResponseLoop timeout start fuel w1

/-- The method `ESP8266::getResponse`; the parameter is a `std::uint32_t`. -/
def getResponse (timeout : Nat) (w : World) : Option (Response × World) :=
  match getTime w with
  | none => none
  | some (start, w1) => getResponseLoop (timeout % 4294967296) start w1.clock.length w1

/-- The method `ESP8266::receiveOk`. -/
def receiveOk (timeout : Nat) (w : World) : Option (Bool × World) :=
  match getResponse timeout w with
  | none => none
  | some (r, w1) => some (decide (r = Response.Ok), w1)

/-- The inner loop of `receiveString`, `while(uart->readable() > 0) ...`.
The flag of the result is `true` when the loop left through
`return result` (the declared size is reached) and `false` when it ended
because nothing is readable. -/
def receiveStringInner (size : Nat) : Nat → List Byte → World → Option (List Byte × World × Bool)
  | 0, result, w => if readable w > 0 then none else some (result, w, false)
  | fuel + 1, result, w =>
    if readable w > 0 then
      match getc w with
      | none => none
      | some (c, w1) =>
        if c.val = 0 then receiveStringInner size fuel result w1
        else
          let result := result ++ [c]
          if result.length = size then some (result, w1, true)
          else receiveStringInner size fuel result w1
    else some (result, w, false)

/-- The outer loop of `receiveString`; one iteration takes one clock sample. -/
def receiveStringLoop (timeout size start : Nat) : Nat → List Byte → World → Option (List Byte × World)
  | 0, _, _ => none
  | fuel + 1, result, w =>
    match getTime w with
    | none => none
    | some (now, w1) =>
      if elapsed now start ≥ timeout then some (result, w1)
      else
        match receiveStringInner size (readable w1) result w1 with
        | none => none
        | some (result1, w2, true) => some (result1, w2)
        | some (result1, w2, false) => receiveStringLoop timeout size start fuel result1 w2

/-- The method `ESP8266::receiveString`; the text is returned as its bytes. -/
def receiveString (timeout : Nat) (w : World) : Option (List Byte × World) :=
  match getResponse timeout w with
  | none => none
  | some (r, w1) =>
    if r ≠ Response.String then some ([], w1)
    else
      match read16 w1 with
      | none => none
      | some (size, w2) =>
        if size = 0 then some ([], w2)
        else
          match getTime w2 with
          | none => none
          | some (start, w3) =>
            receiveStringLoop (timeout % 4294967296) size start w3.clock.length [] w3

/-- Clock samples at which nothing arrives on the serial line, one per
given clock value. -/
def idleTicks (times : List Nat) : List Tick := times.map (fun t => ⟨t, []⟩)

/-- All the bytes that arrive at the given clock samples, in order. -/
def arrivalsOf : List Tick → List Byte
  | [] => []
  | t :: later => t.arrivals ++ arrivalsOf later

/-- The helper `expectOk` as the specification words it:
`awaitResponse(timeoutMs) == Ok`. -/
def expectOk (timeout : Nat) (w : World) : Option (Bool × World) :=
  (getResponse timeout w).map (fun p => (p.1 == Response.Ok, p.2))

/-- The bytes of a text literal. -/
def bytesOf (s : String) : List Byte := s.toList.map (fun c => toByte c.toNat)

/-- A byte sequence without its NUL bytes. -/
def stripNul (l : List Byte) : List Byte := l.filter (fun b => b.val ≠ 0)

/-! ## Text and buffer transfer -/

/-- The bytes the C library writes for `printf(format)` when the call has
no further argument: the format is read up to its terminating NUL, an
ordinary byte is written as it is, the two bytes `%%` write a single `%`,
and any other use of `%` is a conversion that takes an argument the call
does not have, for which the language defines no behaviour (`none`). -/
def formatOutput : List Byte → Option (List Byte)
  | [] => some []
  | [c] => if c.val = 0 then some [] else if c.val = 37 then none else some [c]
  | c :: d :: rest =>
    if c.val = 0 then some []
    else if c.val = 37 then
      if d.val = 37 then (formatOutput rest).map (fun out => d :: out) else none
    else (formatOutput (d :: rest)).map (fun out => c :: out)

/-- The call `uart->printf(format)` with the bytes of `format` (the
terminating NUL of `c_str()` is implied). -/
def printf (format : List Byte) (w : World) : Option World :=
  match formatOutput format with
  | none => none
  | some out => some { w with tx := w.tx ++ out }

/-- The method `ESP8266::sendString`; the text is given by its bytes. -/
def sendString (text : List Byte) (w : World) : Option World :=
  match printf text w with
  | none => none
  | some w1 => some (putc 10 w1)

/-- The copy loop of `readBuffer`, `while(index < limit)`.  The buffer is
the memory behind the pointer `buffer`, by index. -/
def readBufferLoop (timeout limit start : Nat) :
    Nat → Nat → (Nat → Byte) → World → Option (Nat × (Nat → Byte) × World)
  | 0, index, buffer, w => if index < limit then none else some (index, buffer, w)
  | fuel + 1, index, buffer, w =>
    if index < limit then
      match getTime w with
      | none => none
      | some (now, w1) =>
        if elapsed now start ≥ timeout then some (index, buffer, w1)
        else
          match getc w1 with
          | none => none
          | some (c, w2) =>
            readBufferLoop timeout limit start fuel (index + 1) (Function.update buffer index c) w2
    else some (index, buffer, w)

/-- The method `ESP8266::readBuffer`: the returned count, the buffer
afterwards and the port afterwards. -/
def readBuffer (buffer : Nat → Byte) (bufferSize timeout : Nat) (w : World) :
    Option (Nat × (Nat → Byte) × World) :=
  match read16 w with
  | none => none
  | some (size, w1) =>
    let limit := min size bufferSize
    match getTime w1 with
    | none => none
    | some (start, w2) => readBufferLoop (timeout % 4294967296) limit start limit 0 buffer w2

/-! ## Catalog operations -/

/-- Conversion of a 16-bit word to `std::int16_t`. -/
def toInt16 (v : Nat) : Int :=
  if v % 65536 < 32768 then (v % 65536 : Nat) else ((v % 65536 : Nat) : Int) - 65536

/-- Conversion of a 32-bit word to `std::int32_t`. -/
def toInt32 (v : Nat) : Int :=
  if v % 4294967296 < 2147483648 then (v % 4294967296 : Nat)
  else ((v % 4294967296 : Nat) : Int) - 4294967296

/-- The enumerators of `Commands` as the header lists them, first to last. -/
def Commands.declared : List Commands :=
  [.nop, .restart, .checkVersion, .getVersion, .getVersionString, .setBaudRate, .eraseConfig,
   .setWifiMode, .getWifiMode, .joinAP, .getStatus, .leaveAP, .getSSID, .getRSSI, .getLocalIP,
   .getGatewayIP, .getSubnetMask, .getMac, .setStationIP, .scanNetworks, .scanComplete,
   .getNetworkInfo,
   .setSoftAPConfig, .getSoftAPConfig, .setSoftAPIP, .getSoftAPIP, .softAPdisconnect,
   .softAPgetStationNum, .getSoftAPClient,
   .createTCP, .sendTCP, .availableTCP, .readTCP, .closeTCP, .isConnectedTCP,
   .createUDP, .sendUDP, .listenUDP, .availableUDP, .closeUDP, .readUDP, .getRemoteInfoUDP,
   .createHTTP, .sendGetHTTP, .getStringHTTP, .readDataHTTP, .getSizeHTTP, .closeHTTP,
   .setFingerPrintHTTP, .setInSecureHTTP, .addHeaderHTTP, .getResponseHeaderCountHTTP,
   .getResponseHeaderHTTP, .sendPostHttp,
   .espNowInit, .espNowAddPeer, .espNowRemovePeer, .espNowSend, .espNowReceive, .espNowDeInit]

/-- The method `ESP8266::getVersion`. -/
def getVersion (w : World) : Option (Nat × World) :=
  match sendCommand Commands.getVersion w with
  | none => none
  | some w1 =>
    match getResponse 100 w1 with
    | none => none
    | some (r, w2) =>
      if r = Response.Data then
        match read16 w2 with
        | none => none
        | some (n, w3) => if n = 2 then read16 w3 else some (0, w3)
      else some (0, w2)

/-- The method `ESP8266::scanComplete`, returning a `std::int16_t`. -/
def scanComplete (w : World) : Option (Int × World) :=
  match sendCommand Commands.scanComplete w with
  | none => none
  | some w1 =>
    match getResponse 200 w1 with
    | none => none
    | some (r, w2) =>
      if r ≠ Response.Data then some (-1, w2)
      else
        match read16 w2 with
        | none => none
        | some (n, w3) =>
          if n = 2 then
            match read16 w3 with
            | none => none
            | some (v, w4) => some (toInt16 v, w4)
          else some (-1, w3)

/-- The method `ESP8266::getRSSI`, returning a `std::int32_t`; the two
halves are combined as `std::uint32_t` values. -/
def getRSSI (w : World) : Option (Int × World) :=
  match sendCommand Commands.getRSSI w with
  | none => none
  | some w1 =>
    match getResponse 200 w1 with
    | none => none
    | some (r, w2) =>
      if r = Response.Data then
        match read16 w2 with
        | none => none
        | some (n, w3) =>
          if n = 4 then
            match read16 w3 with
            | none => none
            | some (low, w4) =>
              match read16 w4 with
              | none => none
              | some (high, w5) =>
                some (toInt32 (((high <<< 16) % 4294967296) ||| ((low <<< 0) % 4294967296)), w5)
          else some (0, w3)
      else some (0, w2)

/-- The method `ESP8266::getSizeHTTP`, returning a `std::uint32_t`.  The
shift and the `|` are made on `int`, 32 bits wide on the target; the
conversion of the result to `std::uint32_t` keeps its low 32 bits. -/
def getSizeHTTP (w : World) : Option (Nat × World) :=
  match sendCommand Commands.getSizeHTTP w with
  | none => none
  | some w1 =>
    match getResponse 300 w1 with
    | none => none
    | some (r, w2) =>
      if r ≠ Response.Data then some (0, w2)
      else
        match read16 w2 with
        | none => none
        | some (n, w3) =>
          if n = 4 then
            match read16 w3 with
            | none => none
            | some (low, w4) =>
              match read16 w4 with
              | none => none
              | some (high, w5) => some (((high <<< 16) ||| low) % 4294967296, w5)
          else some (0, w3)

/-- The method `ESP8266::createTCP`; `id` is a `std::uint8_t`, `port` a
`std::uint16_t`, the address is given by its bytes. -/
def createTCP (id : Nat) (address : List Byte) (port : Nat) (w : World) :
    Option (Bool × World) :=
  match sendCommand Commands.createTCP w with
  | none => none
  | some w1 =>
    match sendString address (write16 port (putc id w1)) with
    | none => none
    | some w2 => receiveOk 3000 w2

/-- The method `ESP8266::getSoftAPConfig`: the returned flag, the two texts
stored through the reference parameters, and the port afterwards. -/
def getSoftAPConfig (w : World) : Option (Bool × List Byte × List Byte × World) :=
  match sendCommand Commands.getSoftAPConfig w with
  | none => none
  | some w1 =>
    match receiveString 200 w1 with
    | none => none
    | some (ssid, w2) =>
      match receiveString 200 w2 with
      | none => none
      | some (passphrase, w3) => some (true, ssid, passphrase, w3)

/-- The method `ESP8266::getSSID`. -/
def getSSID (w : World) : Option (List Byte × World) :=
  match sendCommand Commands.getLocalIP w with
  | none => none
  | some w1 => receiveString 200 w1

/-- The method `ESP8266::getLocalIP`. -/
def getLocalIP (w : World) : Option (List Byte × World) :=
  match sendCommand Commands.getLocalIP w with
  | none => none
  | some w1 => receiveString 200 w1

/-- The method `ESP8266::addHeaderHTTP`; the texts are given by their bytes. -/
def addHeaderHTTP (name value : List Byte) (w : World) : Option (Bool × World) :=
  match sendCommand Commands.addHeaderHTTP w with
  | none => none
  | some w1 =>
    match sendString name w1 with
    | none => none
    | some w2 =>
      match sendString value w2 with
      | none => none
      | some w3 => receiveOk 200 w3

/-- The method `ESP8266::getResponseHeaderCountHTTP`, returning a
`std::size_t` (32 bits on the target); the halves are combined as in
`getSizeHTTP`. -/
def getResponseHeaderCountHTTP (w : World) : Option (Nat × World) :=
  match sendCommand Commands.addHeaderHTTP w with
  | none => none
  | some w1 =>
    match getResponse 300 w1 with
    | none => none
    | some (r, w2) =>
      if r ≠ Response.Data then some (0, w2)
      else
        match read16 w2 with
        | none => none
        | some (n, w3) =>
          if n = 4 then
            match read16 w3 with
            | none => none
            | some (low, w4) =>
              match read16 w4 with
              | none => none
              | some (high, w5) => some (((high <<< 16) ||| low) % 4294967296, w5)
          else some (0, w3)

/-- The loop of `espNowSend`, `for(i = 0; i < size; i++) uart->putc(buffer[i])`,
from index `i` on. -/
def espNowSendLoop (buffer : Nat → Byte) (size : Nat) : Nat → Nat → World → World
  | 0, _, w => w
  | fuel + 1, i, w =>
    if i < size then espNowSendLoop buffer size fuel (i + 1) (putc (buffer i).val w) else w

/-- The method `ESP8266::espNowSend`; `size` is a `std::size_t` (32 bits on
the target), the buffer is the memory behind the pointer, by index. -/
def espNowSend (mac : List Byte) (buffer : Nat → Byte) (size : Nat) (w : World) :
    Option (Bool × World) :=
  let size := size % 4294967296
  match sendCommand Commands.espNowSend w with
  | none => none
  | some w1 =>
    match sendString mac w1 with
    | none => none
    | some w2 => receiveOk 1000 (espNowSendLoop buffer size size 0 (write16 size w2))

/-- The value of `sizeof(EspNowReceiveInfo)` on the target: 6 bytes `Sender`,
250 bytes `Data`, and the 4-byte `std::size_t Size` at offset 256. -/
def sizeofEspNowReceiveInfo : Nat := 260

/-- The method `ESP8266::espNowReceive`: the returned flag (the count of
`readBuffer` converted to `bool`), the bytes of `info` afterwards and the
port afterwards. -/
def espNowReceive (info : Nat → Byte) (w : World) : Option (Bool × (Nat → Byte) × World) :=
  match sendCommand Commands.espNowReceive w with
  | none => none
  | some w1 =>
    match getResponse 300 w1 with
    | none => none
    | some (r, w2) =>
      if r ≠ Response.Data then some (false, info, w2)
      else
        match readBuffer info sizeofEspNowReceiveInfo 200 w2 with
        | none => none
        | some (count, info1, w3) => some (decide (count ≠ 0), info1, w3)

/-! ## Basic facts about the port model -/

theorem getc_cons (b : Byte) (rest tx : List Byte) (clock : List Tick) :
    getc ⟨b :: rest, tx, clock⟩ = some (b, ⟨rest, tx, clock⟩) := rfl

theorem word_eq (b0 b1 : Byte) :
    (((b1.val % 65536) <<< 8) ||| (b0.val % 65536)) % 65536 = b0.val + 256 * b1.val := by
  have h0 : b0.val < 2 ^ 8 := b0.isLt
  have h1 := b1.isLt
  rw [Nat.mod_eq_of_lt (by omega : b0.val < 65536), Nat.mod_eq_of_lt (by omega : b1.val < 65536)]
  rw [Nat.shiftLeft_eq, Nat.mul_comm, ← Nat.mul_add_lt_is_or h0]
  omega

theorem read16_cons_cons (b0 b1 : Byte) (rest tx : List Byte) (clock : List Tick) :
    read16 ⟨b0 :: b1 :: rest, tx, clock⟩ = some (b0.val + 256 * b1.val, ⟨rest, tx, clock⟩) := by
  simp only [read16, getc_cons, word_eq]

theorem read16_nil (tx : List Byte) (clock : List Tick) : read16 ⟨[], tx, clock⟩ = none := rfl

theorem read16_single (b : Byte) (tx : List Byte) (clock : List Tick) :
    read16 ⟨[b], tx, clock⟩ = none := rfl

theorem write16_eq (v : Nat) (rx tx : List Byte) (clock : List Tick) :
    write16 v ⟨rx, tx, clock⟩
      = ⟨rx, tx ++ [toByte (v % 65536 % 256), toByte (v % 65536 / 256)], clock⟩ := by
  have hand : ∀ x : Nat, x &&& 0xFF = x % 256 := fun x => Nat.and_pow_two_sub_one_eq_mod x 8
  have hshr : ∀ x : Nat, x >>> 8 = x / 256 := fun x => Nat.shiftRight_eq_div_pow x 8
  have e1 : (v % 65536 &&& 0xFF) % 256 = v % 65536 % 256 := by
    rw [hand]; omega
  have e2 : (((v % 65536) >>> 8) &&& 0xFF) % 256 = v % 65536 / 256 := by
    rw [hand, hshr]; omega
  simp only [write16, putc, e1, e2, List.append_assoc, List.singleton_append]

theorem flushLoop_eq (n : Nat) : ∀ (rx tx : List Byte) (clock : List Tick), rx.length ≤ n →
    flushLoop n ⟨rx, tx, clock⟩ = some ⟨[], tx, clock⟩ := by
  induction n with
  | zero =>
    intro rx tx clock h
    have : rx = [] := List.length_eq_zero.mp (Nat.le_zero.mp h)
    subst this
    simp [flushLoop, readable]
  | succ n ih =>
    intro rx tx clock h
    cases rx with
    | nil => simp [flushLoop, readable]
    | cons b rest =>
      have h1 : rest.length ≤ n := by simpa using h
      simp [flushLoop, readable, getc_cons, ih rest tx clock h1]

theorem getTime_cons (rx tx : List Byte) (t : Tick) (later : List Tick) :
    getTime ⟨rx, tx, t :: later⟩
      = some (t.time % 4294967296, ⟨rx ++ t.arrivals, tx, later⟩) := rfl

theorem elapsed_mod (a b : Nat) :
    elapsed (a % 4294967296) (b % 4294967296) = elapsed a b := by
  unfold elapsed
  omega

theorem Commands.code_le (c : Commands) : c.code ≤ 60 := by
  cases c <;> decide

theorem toByte_val_of_lt (n : Nat) (h : n < 256) : (toByte n).val = n := by
  simp [toByte, Nat.mod_eq_of_lt h]

/-! ## The polling loop of `getResponse` -/

/-- A poll at which the deadline has passed ends the call with `Error`. -/
theorem getResponseLoop_deadline (timeout start n : Nat) (rx tx : List Byte) (tk : Tick)
    (post : List Tick) (hk : timeout ≤ elapsed (tk.time % 4294967296) start) :
    getResponseLoop timeout start (n + 1) ⟨rx, tx, tk :: post⟩
      = some (Response.Error, ⟨rx ++ tk.arrivals, tx, post⟩) := by
  simp [getResponseLoop, getTime_cons, hk]

/-- A poll before the deadline at which two bytes are readable reads them. -/
theorem getResponseLoop_word (timeout start n : Nat) (rx tx : List Byte) (tk : Tick)
    (post : List Tick) (b0 b1 : Byte) (rest : List Byte)
    (hk : elapsed (tk.time % 4294967296) start < timeout)
    (hw : rx ++ tk.arrivals = b0 :: b1 :: rest) :
    getResponseLoop timeout start (n + 1) ⟨rx, tx, tk :: post⟩
      = some (⟨b0.val + 256 * b1.val⟩, ⟨rest, tx, post⟩) := by
  simp [getResponseLoop, getTime_cons, hw, Nat.not_le.mpr hk, readable, read16_cons_cons]

/-- A poll before the deadline at which nothing is readable goes round. -/
theorem getResponseLoop_idle (timeout start n t : Nat) (tx : List Byte) (later : List Tick)
    (hk : elapsed (t % 4294967296) start < timeout) :
    getResponseLoop timeout start (n + 1) ⟨[], tx, ⟨t, []⟩ :: later⟩
      = getResponseLoop timeout start n ⟨[], tx, later⟩ := by
  simp [getResponseLoop, getTime_cons, Nat.not_le.mpr hk, readable]

theorem getResponseLoop_idles (timeout start : Nat) (tx : List Byte) (later : List Tick) :
    ∀ pre : List Nat, (∀ t ∈ pre, elapsed (t % 4294967296) start < timeout) →
      getResponseLoop timeout start (idleTicks pre ++ later).length ⟨[], tx, idleTicks pre ++ later⟩
        = getResponseLoop timeout start later.length ⟨[], tx, later⟩ := by
  intro pre
  induction pre with
  | nil => intro _; rfl
  | cons t pre ih =>
    intro h
    have ht := h t (List.mem_cons_self _ _)
    have hrest : ∀ u ∈ pre, elapsed (u % 4294967296) start < timeout :=
      fun u hu => h u (List.mem_cons_of_mem _ hu)
    have e : idleTicks (t :: pre) ++ later = ⟨t, []⟩ :: (idleTicks pre ++ later) := rfl
    rw [e, List.length_cons, getResponseLoop_idle timeout start _ t tx _ ht]
    exact ih hrest

/-- With no sample past the deadline and nothing readable, the schedule ends
before the call does. -/
theorem getResponseLoop_starved (timeout start : Nat) (tx : List Byte) :
    ∀ times : List Nat, (∀ t ∈ times, elapsed (t % 4294967296) start < timeout) →
      getResponseLoop timeout start (idleTicks times).length ⟨[], tx, idleTicks times⟩ = none := by
  intro times h
  have := getResponseLoop_idles timeout start tx [] times h
  simp only [List.append_nil] at this
  rw [this]
  rfl

/-- The schedule shape of a call that times out: nothing is readable at
the polls `pre` before the deadline, and the sample `tk` is past it. -/
theorem getResponse_timeout_gen (timeout : Nat) (ht : timeout < 4294967296)
    (rx tx : List Byte) (s : Tick) (pre : List Nat) (tk : Tick) (post : List Tick)
    (hq : pre ≠ [] → rx ++ s.arrivals = [])
    (hpre : ∀ t ∈ pre, elapsed t s.time < timeout)
    (hk : timeout ≤ elapsed tk.time s.time) :
    getResponse timeout ⟨rx, tx, s :: (idleTicks pre ++ tk :: post)⟩
      = some (Response.Error, ⟨rx ++ s.arrivals ++ tk.arrivals, tx, post⟩) := by
  simp only [getResponse, getTime_cons, Nat.mod_eq_of_lt ht]
  cases pre with
  | nil =>
    exact getResponseLoop_deadline timeout _ _ _ tx tk post (by rw [elapsed_mod]; exact hk)
  | cons t pre =>
    rw [hq (by simp)]
    rw [getResponseLoop_idles timeout _ tx (tk :: post) (t :: pre)
      (fun u hu => by rw [elapsed_mod]; exact hpre u hu)]
    exact getResponseLoop_deadline timeout _ _ _ tx tk post (by rw [elapsed_mod]; exact hk)

/-- The schedule shape of a call that reads a tag: nothing is readable at
the polls `pre`, and at the poll `tk`, still before the deadline, the
queue starts with two bytes. -/
theorem getResponse_word_gen (timeout : Nat) (ht : timeout < 4294967296)
    (rx tx : List Byte) (s : Tick) (pre : List Nat) (tk : Tick) (post : List Tick)
    (b0 b1 : Byte) (rest : List Byte)
    (hq : pre ≠ [] → rx ++ s.arrivals = [])
    (hpre : ∀ t ∈ pre, elapsed t s.time < timeout)
    (hk : elapsed tk.time s.time < timeout)
    (hw : rx ++ s.arrivals ++ tk.arrivals = b0 :: b1 :: rest) :
    getResponse timeout ⟨rx, tx, s :: (idleTicks pre ++ tk :: post)⟩
      = some (⟨b0.val + 256 * b1.val⟩, ⟨rest, tx, post⟩) := by
  simp only [getResponse, getTime_cons, Nat.mod_eq_of_lt ht]
  cases pre with
  | nil =>
    exact getResponseLoop_word timeout _ _ _ tx tk post b0 b1 rest
      (by rw [elapsed_mod]; exact hk) hw
  | cons t pre =>
    have hq0 := hq (by simp)
    rw [hq0] at hw ⊢
    rw [getResponseLoop_idles timeout _ tx (tk :: post) (t :: pre)
      (fun u hu => by rw [elapsed_mod]; exact hpre u hu)]
    exact getResponseLoop_word timeout _ _ _ tx tk post b0 b1 rest
      (by rw [elapsed_mod]; exact hk) hw

/-- Without a sample past the deadline a never-readable line keeps the
call polling to the end of the schedule. -/
theorem getResponse_starved (timeout : Nat) (ht : timeout < 4294967296)
    (tx : List Byte) (t0 : Nat) (times : List Nat)
    (h : ∀ t ∈ times, elapsed t t0 < timeout) :
    getResponse timeout ⟨[], tx, idleTicks (t0 :: times)⟩ = none := by
  have e : idleTicks (t0 :: times) = ⟨t0, []⟩ :: idleTicks times := rfl
  simp only [getResponse, e, getTime_cons, Nat.mod_eq_of_lt ht, List.append_nil]
  exact getResponseLoop_starved timeout _ tx times (fun u hu => by rw [elapsed_mod]; exact h u hu)

/-- Every result of the polling loop: the clock samples `used` were taken,
and either the call timed out and read nothing, or it read exactly the
two bytes at the head of the queue and returns their word. -/
theorem getResponseLoop_sound (timeout start : Nat) :
    ∀ (fuel : Nat) (w : World) (r : Response) (w1 : World),
      getResponseLoop timeout start fuel w = some (r, w1) →
      ∃ used : List Tick,
        w.clock = used ++ w1.clock ∧ w1.tx = w.tx
          ∧ ((r = Response.Error ∧ w.rx ++ arrivalsOf used = w1.rx)
            ∨ ∃ b0 b1 : Byte, w.rx ++ arrivalsOf used = b0 :: b1 :: w1.rx
                ∧ r = ⟨b0.val + 256 * b1.val⟩) := by
  intro fuel
  induction fuel with
  | zero =>
    intro w r w1 h
    simp [getResponseLoop] at h
  | succ n ih =>
    intro w r w1 h
    obtain ⟨rx, tx, clock⟩ := w
    cases clock with
    | nil => simp [getResponseLoop, getTime] at h
    | cons t later =>
      by_cases hk : timeout ≤ elapsed (t.time % 4294967296) start
      · rw [getResponseLoop_deadline timeout start n rx tx t later hk] at h
        simp only [Option.some.injEq, Prod.mk.injEq] at h
        obtain ⟨hr, hw⟩ := h
        subst hr hw
        exact ⟨[t], rfl, rfl, Or.inl ⟨rfl, by simp [arrivalsOf]⟩⟩
      · cases hq : rx ++ t.arrivals with
        | nil =>
          simp only [getResponseLoop, getTime_cons, ge_iff_le, hk, if_false, readable, hq,
            List.length_nil, gt_iff_lt, Nat.lt_irrefl] at h
          obtain ⟨used, hclock, htx, hcase⟩ := ih _ r w1 h
          have hclock1 : later = used ++ w1.clock := hclock
          refine ⟨t :: used, by simp [hclock1], htx, ?_⟩
          simp only [arrivalsOf, ← List.append_assoc, hq]
          exact hcase
        | cons b0 rest =>
          cases rest with
          | nil =>
            simp [getResponseLoop, getTime_cons, hk, readable, hq, read16_single] at h
          | cons b1 rest =>
            rw [getResponseLoop_word timeout start n rx tx t later b0 b1 rest
              (Nat.not_le.mp hk) hq] at h
            simp only [Option.some.injEq, Prod.mk.injEq] at h
            obtain ⟨hr, hw⟩ := h
            subst hr hw
            exact ⟨[t], rfl, rfl, Or.inr ⟨b0, b1, by simp [arrivalsOf, hq], rfl⟩⟩

/-- Every result of `getResponse`: it either timed out without reading a
byte or read exactly the two tag bytes. -/
theorem getResponse_sound (timeout : Nat) (w : World) (r : Response) (w1 : World)
    (h : getResponse timeout w = some (r, w1)) :
    ∃ used : List Tick,
      w.clock = used ++ w1.clock ∧ w1.tx = w.tx
        ∧ ((r = Response.Error ∧ w.rx ++ arrivalsOf used = w1.rx)
          ∨ ∃ b0 b1 : Byte, w.rx ++ arrivalsOf used = b0 :: b1 :: w1.rx
              ∧ r = ⟨b0.val + 256 * b1.val⟩) := by
  obtain ⟨rx, tx, clock⟩ := w
  cases clock with
  | nil => simp [getResponse, getTime] at h
  | cons s later =>
    simp only [getResponse, getTime_cons] at h
    obtain ⟨used, hclock, htx, hcase⟩ := getResponseLoop_sound _ _ _ _ r w1 h
    have hclock1 : later = used ++ w1.clock := hclock
    refine ⟨s :: used, by simp [hclock1], htx, ?_⟩
    simp only [arrivalsOf, ← List.append_assoc]
    exact hcase

/-! ## The loops of `receiveString` -/

theorem arrivalsOf_append (a b : List Tick) :
    arrivalsOf (a ++ b) = arrivalsOf a ++ arrivalsOf b := by
  induction a with
  | nil => rfl
  | cons t a ih => simp [arrivalsOf, ih]

theorem stripNul_append (a b : List Byte) : stripNul (a ++ b) = stripNul a ++ stripNul b := by
  simp [stripNul]

theorem stripNul_nil : stripNul [] = [] := rfl

theorem stripNul_cons_nul (c : Byte) (l : List Byte) (h : c.val = 0) :
    stripNul (c :: l) = stripNul l := by
  simp [stripNul, h]

theorem stripNul_cons_pos (c : Byte) (l : List Byte) (h : c.val ≠ 0) :
    stripNul (c :: l) = c :: stripNul l := by
  simp [stripNul, h]

theorem mem_stripNul (l : List Byte) : ∀ b ∈ stripNul l, b.val ≠ 0 := by
  intro b hb
  simpa using (List.mem_filter.mp hb).2

/-- What one run of the inner loop does to the queue `rx`: it takes a
prefix `consumed`, appends its non-NUL bytes to the text, and either
empties the queue without reaching `size` (flag `false`) or stops at the
byte that completes the text (flag `true`). -/
theorem receiveStringInner_spec (size : Nat) (tx : List Byte) (clock : List Tick) :
    ∀ (rx result : List Byte), result.length < size →
      ∃ (consumed remaining res : List Byte) (flag : Bool),
        receiveStringInner size rx.length result ⟨rx, tx, clock⟩
            = some (res, ⟨remaining, tx, clock⟩, flag)
          ∧ rx = consumed ++ remaining
          ∧ res = result ++ stripNul consumed
          ∧ (flag = false → remaining = [] ∧ res.length < size)
          ∧ (flag = true → res.length = size) := by
  intro rx
  induction rx with
  | nil =>
    intro result h
    exact ⟨[], [], result, false, by simp [receiveStringInner, readable], rfl,
      by simp [stripNul_nil], fun _ => ⟨rfl, h⟩, fun hf => by simp at hf⟩
  | cons c rest ih =>
    intro result h
    by_cases hc : c.val = 0
    · obtain ⟨consumed, remaining, res, flag, hrun, hsplit, hres, hf, ht⟩ := ih result h
      refine ⟨c :: consumed, remaining, res, flag, ?_, by simp [hsplit], ?_, hf, ht⟩
      · simp only [List.length_cons, receiveStringInner, readable, Nat.succ_pos, if_true,
          getc_cons, hc]
        exact hrun
      · rw [stripNul_cons_nul c consumed hc]; exact hres
    · by_cases hfull : (result ++ [c]).length = size
      · refine ⟨[c], rest, result ++ [c], true, ?_, rfl, ?_, fun hf => by simp at hf,
          fun _ => hfull⟩
        · simp only [List.length_cons, receiveStringInner, readable, Nat.succ_pos, if_true,
            getc_cons, hc, if_false, hfull]
        · rw [stripNul_cons_pos c [] hc, stripNul_nil]
      · have hlt : (result ++ [c]).length < size := by
          simp only [List.length_append, List.length_singleton] at hfull ⊢
          omega
        obtain ⟨consumed, remaining, res, flag, hrun, hsplit, hres, hf, ht⟩ :=
          ih (result ++ [c]) hlt
        refine ⟨c :: consumed, remaining, res, flag, ?_, by simp [hsplit], ?_, hf, ht⟩
        · simp only [List.length_cons, receiveStringInner, readable, Nat.succ_pos, if_true,
            getc_cons, hc, if_false, hfull]
          exact hrun
        · rw [stripNul_cons_pos c consumed hc, hres]; simp

/-- The inner loop on a queue that does not complete the text. -/
theorem receiveStringInner_short (size : Nat) (rx tx result : List Byte) (clock : List Tick)
    (h : (result ++ stripNul rx).length < size) :
    receiveStringInner size rx.length result ⟨rx, tx, clock⟩
      = some (result ++ stripNul rx, ⟨[], tx, clock⟩, false) := by
  have h0 : result.length < size := by
    simp only [List.length_append] at h; omega
  obtain ⟨consumed, remaining, res, flag, hrun, hsplit, hres, hf, ht⟩ :=
    receiveStringInner_spec size tx clock rx result h0
  cases flag with
  | false =>
    obtain ⟨hrem, _⟩ := hf rfl
    subst hrem
    simp only [List.append_nil] at hsplit
    subst hsplit
    rw [hrun, hres]
  | true =>
    have hlen := ht rfl
    rw [hsplit, stripNul_append] at h
    rw [hres] at hlen
    simp only [List.length_append] at h hlen
    omega

/-- The inner loop on a queue that completes the text. -/
theorem receiveStringInner_full (size : Nat) (rx tx result : List Byte) (clock : List Tick)
    (h0 : result.length < size) (h : size ≤ (result ++ stripNul rx).length) :
    ∃ remaining : List Byte,
      receiveStringInner size rx.length result ⟨rx, tx, clock⟩
        = some ((result ++ stripNul rx).take size, ⟨remaining, tx, clock⟩, true) := by
  obtain ⟨consumed, remaining, res, flag, hrun, hsplit, hres, hf, ht⟩ :=
    receiveStringInner_spec size tx clock rx result h0
  cases flag with
  | false =>
    obtain ⟨hrem, hlen⟩ := hf rfl
    subst hrem
    simp only [List.append_nil] at hsplit
    subst hsplit
    rw [hres] at hlen
    omega
  | true =>
    have hlen := ht rfl
    refine ⟨remaining, ?_⟩
    rw [hrun, hsplit, stripNul_append, ← List.append_assoc, ← hres,
      List.take_append_of_le_length (Nat.le_of_eq hlen.symm), ← hlen, List.take_length]

/-- An outer iteration whose clock sample is past the deadline returns the
text accumulated so far. -/
theorem receiveStringLoop_deadline (timeout size start n : Nat) (result rx tx : List Byte)
    (tk : Tick) (post : List Tick) (hk : timeout ≤ elapsed (tk.time % 4294967296) start) :
    receiveStringLoop timeout size start (n + 1) result ⟨rx, tx, tk :: post⟩
      = some (result, ⟨rx ++ tk.arrivals, tx, post⟩) := by
  simp [receiveStringLoop, getTime_cons, hk]

/-- An outer iteration before the deadline that does not complete the text
empties the queue and goes round. -/
theorem receiveStringLoop_short (timeout size start n : Nat) (result rx tx : List Byte)
    (t : Tick) (later : List Tick) (hk : elapsed (t.time % 4294967296) start < timeout)
    (h : (result ++ stripNul (rx ++ t.arrivals)).length < size) :
    receiveStringLoop timeout size start (n + 1) result ⟨rx, tx, t :: later⟩
      = receiveStringLoop timeout size start n (result ++ stripNul (rx ++ t.arrivals))
          ⟨[], tx, later⟩ := by
  simp only [receiveStringLoop, getTime_cons, readable, ge_iff_le, Nat.not_le.mpr hk, if_false]
  rw [receiveStringInner_short size (rx ++ t.arrivals) tx result later h]

/-- An outer iteration before the deadline that completes the text returns it. -/
theorem receiveStringLoop_full (timeout size start n : Nat) (result rx tx : List Byte)
    (t : Tick) (later : List Tick) (hk : elapsed (t.time % 4294967296) start < timeout)
    (h0 : result.length < size) (h : size ≤ (result ++ stripNul (rx ++ t.arrivals)).length) :
    ∃ remaining : List Byte,
      receiveStringLoop timeout size start (n + 1) result ⟨rx, tx, t :: later⟩
        = some ((result ++ stripNul (rx ++ t.arrivals)).take size, ⟨remaining, tx, later⟩) := by
  obtain ⟨remaining, hrun⟩ := receiveStringInner_full size (rx ++ t.arrivals) tx result later h0 h
  refine ⟨remaining, ?_⟩
  simp only [receiveStringLoop, getTime_cons, readable, ge_iff_le, Nat.not_le.mpr hk, if_false]
  rw [hrun]

/-- Polls before the deadline over which the text stays incomplete: all
the bytes that came in are taken. -/
theorem receiveStringLoop_incomplete (timeout size start : Nat) (tx : List Byte)
    (later : List Tick) :
    ∀ (ps : List Tick) (p : Tick) (result rx : List Byte),
      (∀ t ∈ p :: ps, elapsed (t.time % 4294967296) start < timeout) →
      (result ++ stripNul (rx ++ arrivalsOf (p :: ps))).length < size →
      receiveStringLoop timeout size start ((p :: ps) ++ later).length result
          ⟨rx, tx, (p :: ps) ++ later⟩
        = receiveStringLoop timeout size start later.length
            (result ++ stripNul (rx ++ arrivalsOf (p :: ps))) ⟨[], tx, later⟩ := by
  intro ps
  induction ps with
  | nil =>
    intro p result rx hearly hlen
    have e : arrivalsOf [p] = p.arrivals := by simp [arrivalsOf]
    rw [e] at hlen ⊢
    exact receiveStringLoop_short timeout size start _ result rx tx p later
      (hearly p (List.mem_cons_self _ _)) hlen
  | cons p1 ps ih =>
    intro p result rx hearly hlen
    have e : arrivalsOf (p :: p1 :: ps) = p.arrivals ++ arrivalsOf (p1 :: ps) := rfl
    rw [e, ← List.append_assoc, stripNul_append, ← List.append_assoc] at hlen ⊢
    have hshort : (result ++ stripNul (rx ++ p.arrivals)).length < size := by
      rw [List.length_append] at hlen; omega
    have hstep := receiveStringLoop_short timeout size start ((p1 :: ps) ++ later).length
      result rx tx p ((p1 :: ps) ++ later) (hearly p (List.mem_cons_self _ _)) hshort
    have hih := ih p1 (result ++ stripNul (rx ++ p.arrivals)) []
      (fun t ht => hearly t (List.mem_cons_of_mem _ ht)) (by simpa using hlen)
    simp only [List.nil_append] at hih
    rw [← hih]
    exact hstep

/-- Polls before the deadline during which the text becomes complete. -/
theorem receiveStringLoop_complete (timeout size start : Nat) (tx : List Byte)
    (later : List Tick) :
    ∀ (pre : List Tick) (result rx : List Byte),
      (pre = [] → rx = []) →
      (∀ t ∈ pre, elapsed (t.time % 4294967296) start < timeout) →
      result.length < size →
      size ≤ (result ++ stripNul (rx ++ arrivalsOf pre)).length →
      ∃ w1 : World,
        receiveStringLoop timeout size start (pre ++ later).length result
            ⟨rx, tx, pre ++ later⟩
          = some ((result ++ stripNul (rx ++ arrivalsOf pre)).take size, w1) := by
  intro pre
  induction pre with
  | nil =>
    intro result rx hrx _ h0 h
    rw [hrx rfl] at h
    simp [arrivalsOf, stripNul_nil] at h
    omega
  | cons p ps ih =>
    intro result rx _ hearly h0 h
    have e : arrivalsOf (p :: ps) = p.arrivals ++ arrivalsOf ps := rfl
    rw [e, ← List.append_assoc, stripNul_append, ← List.append_assoc] at h ⊢
    by_cases hnow : size ≤ (result ++ stripNul (rx ++ p.arrivals)).length
    · obtain ⟨remaining, hrun⟩ := receiveStringLoop_full timeout size start (ps ++ later).length
        result rx tx p (ps ++ later) (hearly p (List.mem_cons_self _ _)) h0 hnow
      refine ⟨⟨remaining, tx, ps ++ later⟩, ?_⟩
      rw [List.take_append_of_le_length hnow]
      exact hrun
    · have hshort : (result ++ stripNul (rx ++ p.arrivals)).length < size := Nat.not_le.mp hnow
      have hstep := receiveStringLoop_short timeout size start (ps ++ later).length
        result rx tx p (ps ++ later) (hearly p (List.mem_cons_self _ _)) hshort
      obtain ⟨w1, hrun⟩ := ih (result ++ stripNul (rx ++ p.arrivals)) [] (fun _ => rfl)
        (fun t ht => hearly t (List.mem_cons_of_mem _ ht)) hshort (by simpa using h)
      simp only [List.nil_append] at hrun
      exact ⟨w1, by rw [← hrun]; exact hstep⟩

/-- Every result of the outer loop: the clock samples `used` were taken,
the prefix `consumed` of the bytes readable over these samples was read,
and the text grew by the non-NUL bytes of `consumed`, to at most `size`. -/
theorem receiveStringLoop_sound (timeout size start : Nat) :
    ∀ (fuel : Nat) (result : List Byte) (w : World) (res : List Byte) (w1 : World),
      result.length < size →
      receiveStringLoop timeout size start fuel result w = some (res, w1) →
      ∃ (used : List Tick) (consumed : List Byte),
        w.clock = used ++ w1.clock ∧ w.rx ++ arrivalsOf used = consumed ++ w1.rx
          ∧ res = result ++ stripNul consumed ∧ res.length ≤ size ∧ w1.tx = w.tx := by
  intro fuel
  induction fuel with
  | zero =>
    intro result w res w1 _ h
    simp [receiveStringLoop] at h
  | succ n ih =>
    intro result w res w1 h0 h
    obtain ⟨rx, tx, clock⟩ := w
    cases clock with
    | nil => simp [receiveStringLoop, getTime] at h
    | cons t later =>
      by_cases hk : timeout ≤ elapsed (t.time % 4294967296) start
      · rw [receiveStringLoop_deadline timeout size start n result rx tx t later hk] at h
        simp only [Option.some.injEq, Prod.mk.injEq] at h
        obtain ⟨hres, hw⟩ := h
        subst hres hw
        exact ⟨[t], [], rfl, by simp [arrivalsOf], by simp [stripNul_nil],
          Nat.le_of_lt h0, rfl⟩
      · obtain ⟨consumed, remaining, res0, flag, hrun, hsplit, hres, hf, hfull⟩ :=
          receiveStringInner_spec size tx later (rx ++ t.arrivals) result h0
        simp only [receiveStringLoop, getTime_cons, readable, ge_iff_le, hk, if_false] at h
        rw [hrun] at h
        cases flag with
        | true =>
          simp only [Option.some.injEq, Prod.mk.injEq] at h
          obtain ⟨hr, hw⟩ := h
          subst hr hw
          exact ⟨[t], consumed, rfl, by simp [arrivalsOf, hsplit], hres,
            Nat.le_of_eq (hfull rfl), rfl⟩
        | false =>
          obtain ⟨hrem, hlen⟩ := hf rfl
          subst hrem
          simp only at h
          obtain ⟨used, consumed1, hclock, hq, hr, hle, htx⟩ := ih res0 _ res w1 hlen h
          simp only [List.nil_append] at hq
          simp only [List.append_nil] at hsplit
          have hclock1 : later = used ++ w1.clock := hclock
          refine ⟨t :: used, consumed ++ consumed1, by simp [hclock1], ?_, ?_, hle, htx⟩
          · simp only [arrivalsOf, ← List.append_assoc, hsplit]
            rw [List.append_assoc, hq]
          · rw [hr, hres, stripNul_append, List.append_assoc]

/-! ## FrameCodec -/

/-- C1: for every 16-bit value `v`, `write16 v` followed by `read16` over a
loopback queue (empty before the write; what is written becomes readable
in order) returns exactly `v` and leaves the queue as it was before the
write. -/
theorem write16_read16_loopback (v : Nat) (hv : v < 65536) (clock : List Tick) :
    read16 (loopback (write16 v ⟨[], [], clock⟩)) = some (v, ⟨[], [], clock⟩) := by
  rw [write16_eq, Nat.mod_eq_of_lt hv]
  simp only [loopback, List.nil_append, read16_cons_cons]
  rw [toByte_val_of_lt _ (Nat.mod_lt _ (by decide)), toByte_val_of_lt _ (by omega)]
  congr 2
  omega

theorem write16_read16_loopback_witness :
    43981 < 65536 ∧
      read16 (loopback (write16 43981 ⟨[], [], []⟩)) = some (43981, ⟨[], [], []⟩) :=
  ⟨by decide, write16_read16_loopback 43981 (by decide) []⟩

/-- C2: for every 16-bit value `v`, `write16 v` appends exactly two bytes to
the outbound stream, first `v mod 256` and then `v div 256`, and changes
nothing else. -/
theorem write16_low_then_high (v : Nat) (hv : v < 65536) (rx tx : List Byte)
    (clock : List Tick) :
    write16 v ⟨rx, tx, clock⟩ = ⟨rx, tx ++ [toByte (v % 256), toByte (v / 256)], clock⟩
      ∧ (toByte (v % 256)).val = v % 256 ∧ (toByte (v / 256)).val = v / 256 := by
  refine ⟨?_, toByte_val_of_lt _ (Nat.mod_lt _ (by decide)), toByte_val_of_lt _ (by omega)⟩
  rw [write16_eq, Nat.mod_eq_of_lt hv]

theorem write16_low_then_high_witness :
    4660 < 65536 ∧
      (write16 4660 ⟨[7], [1], []⟩ = ⟨[7], [1] ++ [toByte (4660 % 256), toByte (4660 / 256)], []⟩
        ∧ (toByte (4660 % 256)).val = 4660 % 256 ∧ (toByte (4660 / 256)).val = 4660 / 256) :=
  ⟨by decide, write16_low_then_high 4660 (by decide) [7] [1] []⟩

/-- C3: on a queue that starts with the bytes `b0`, `b1`, `read16` takes
exactly these two bytes, in this order, and returns `b0 + 256 * b1`; every
result of `read16` is in `0..65535`. -/
theorem read16_low_then_high (b0 b1 : Byte) (rest tx : List Byte) (clock : List Tick) :
    read16 ⟨b0 :: b1 :: rest, tx, clock⟩ = some (b0.val + 256 * b1.val, ⟨rest, tx, clock⟩)
      ∧ b0.val + 256 * b1.val < 65536
      ∧ ∀ (w w1 : World) (v : Nat), read16 w = some (v, w1) → v < 65536 := by
  refine ⟨read16_cons_cons b0 b1 rest tx clock, by omega, ?_⟩
  intro w w1 v h
  unfold read16 at h
  cases h0 : getc w with
  | none => simp [h0] at h
  | some p0 =>
    cases h1 : getc p0.2 with
    | none => simp [h0, h1] at h
    | some p1 =>
      simp only [h0, h1, Option.some.injEq, Prod.mk.injEq] at h
      rw [← h.1]
      exact Nat.mod_lt _ (by decide)

/-! ## Command dispatch -/

/-- C4: for every opcode and every inbound queue content, `sendCommand`
discards all the readable bytes and then writes exactly the two
little-endian opcode bytes: afterwards no earlier inbound byte is readable
and the outbound stream has grown by `[opcode mod 256, opcode div 256]`. -/
theorem sendCommand_flushes_then_writes (command : Commands) (rx tx : List Byte)
    (clock : List Tick) :
    sendCommand command ⟨rx, tx, clock⟩
        = some ⟨[], tx ++ [toByte (command.code % 256), toByte (command.code / 256)], clock⟩
      ∧ (toByte (command.code % 256)).val = command.code % 256
      ∧ (toByte (command.code / 256)).val = command.code / 256 := by
  have hc := Commands.code_le command
  refine ⟨?_, toByte_val_of_lt _ (Nat.mod_lt _ (by decide)), toByte_val_of_lt _ (by omega)⟩
  simp only [sendCommand, readable, flushLoop_eq rx.length rx tx clock (Nat.le_refl _), write16_eq]
  rw [Nat.mod_eq_of_lt (by omega : command.code < 65536)]

/-! ## Response polling -/

/-- C5: over a line that never becomes readable, `getResponse timeout`
returns `Response.Error` (2), and it does so at the first clock sample
`tk` with `tk - start >= timeout` (the samples `pre` before it have
`now - start < timeout`), never on an earlier one: the samples after `tk`
are left untaken, and while no sample has reached the deadline the call
does not return.  Here `start` is the sample `t0` taken at call entry and
the difference is the 32-bit one of the code. -/
theorem getResponse_never_readable (timeout t0 : Nat) (ht : timeout < 4294967296)
    (tx : List Byte) :
    (∀ (pre : List Nat) (tk : Nat) (post : List Nat),
        (∀ t ∈ pre, elapsed t t0 < timeout) → timeout ≤ elapsed tk t0 →
        getResponse timeout ⟨[], tx, idleTicks (t0 :: (pre ++ tk :: post))⟩
          = some (Response.Error, ⟨[], tx, idleTicks post⟩))
      ∧ (∀ times : List Nat, (∀ t ∈ times, elapsed t t0 < timeout) →
        getResponse timeout ⟨[], tx, idleTicks (t0 :: times)⟩ = none)
      ∧ Response.Error.val = 2 := by
  refine ⟨?_, fun times h => getResponse_starved timeout ht tx t0 times h, rfl⟩
  intro pre tk post hpre hk
  have e : idleTicks (t0 :: (pre ++ tk :: post))
      = (⟨t0, []⟩ : Tick) :: (idleTicks pre ++ (⟨tk, []⟩ : Tick) :: idleTicks post) := by
    simp [idleTicks]
  rw [e]
  exact getResponse_timeout_gen timeout ht [] tx ⟨t0, []⟩ pre ⟨tk, []⟩ (idleTicks post)
    (fun _ => rfl) hpre hk

theorem getResponse_never_readable_witness :
    50 < 4294967296 ∧
      getResponse 50 ⟨[], [], idleTicks [1000, 1010, 1049, 1050, 1060]⟩
        = some (Response.Error, ⟨[], [], idleTicks [1060]⟩) ∧
      getResponse 50 ⟨[], [], idleTicks [1000, 1010, 1049]⟩ = none :=
  ⟨by decide,
    (getResponse_never_readable 50 1000 (by decide) []).1 [1010, 1049] 1050 [1060]
      (by decide) (by decide),
    (getResponse_never_readable 50 1000 (by decide) []).2.1 [1010, 1049] (by decide)⟩

/-- C6: for every 16-bit word `t`, also outside `1..4`, that is readable at a
poll before the deadline (nothing was readable at the polls `pre` before
it), `getResponse` returns the tag whose value is exactly `t`; no
validation or mapping to `Error` is applied. -/
theorem getResponse_returns_any_tag (timeout : Nat) (ht : timeout < 4294967296)
    (t : Nat) (h16 : t < 65536) (rx tx : List Byte) (s : Tick) (pre : List Nat) (tk : Tick)
    (post : List Tick) (rest : List Byte)
    (hq : pre ≠ [] → rx ++ s.arrivals = [])
    (hpre : ∀ u ∈ pre, elapsed u s.time < timeout)
    (hk : elapsed tk.time s.time < timeout)
    (hw : rx ++ s.arrivals ++ tk.arrivals = toByte (t % 256) :: toByte (t / 256) :: rest) :
    getResponse timeout ⟨rx, tx, s :: (idleTicks pre ++ tk :: post)⟩
      = some (⟨t⟩, ⟨rest, tx, post⟩) := by
  rw [getResponse_word_gen timeout ht rx tx s pre tk post _ _ rest hq hpre hk hw]
  rw [toByte_val_of_lt _ (Nat.mod_lt _ (by decide)), toByte_val_of_lt _ (by omega)]
  congr 3
  omega

theorem getResponse_returns_any_tag_witness :
    getResponse 100 ⟨[], [], ⟨0, []⟩ :: (idleTicks [10, 20] ++ ⟨30, [0xEF, 0xBE, 9]⟩ :: [])⟩
      = some (⟨0xBEEF⟩, ⟨[9], [], []⟩) :=
  getResponse_returns_any_tag 100 (by decide) 0xBEEF (by decide) [] [] ⟨0, []⟩ [10, 20]
    ⟨30, [0xEF, 0xBE, 9]⟩ [] [9] (fun _ => rfl) (by decide) (by decide) (by decide)

/-- C7: `receiveOk timeout` is `getResponse timeout == Ok` (the helper
`expectOk` of the specification): it is `true` exactly when `getResponse`
gives the tag `1`; when a word `t` is read before the deadline it is
`true` for `t = 1` and `false` for every other `t`; and it is `false` on
timeout. -/
theorem receiveOk_eq_getResponse_is_Ok :
    (∀ (timeout : Nat) (w : World), receiveOk timeout w = expectOk timeout w)
      ∧ (∀ (timeout : Nat) (w w1 : World),
          receiveOk timeout w = some (true, w1) ↔ getResponse timeout w = some (⟨1⟩, w1))
      ∧ (∀ (timeout : Nat) (w w1 : World),
          receiveOk timeout w = some (false, w1)
            ↔ ∃ r : Response, r.val ≠ 1 ∧ getResponse timeout w = some (r, w1))
      ∧ (∀ (timeout t : Nat) (rx tx : List Byte) (s : Tick) (pre : List Nat) (tk : Tick)
          (post : List Tick) (rest : List Byte),
          timeout < 4294967296 → t < 65536 →
          (pre ≠ [] → rx ++ s.arrivals = []) →
          (∀ u ∈ pre, elapsed u s.time < timeout) →
          elapsed tk.time s.time < timeout →
          rx ++ s.arrivals ++ tk.arrivals = toByte (t % 256) :: toByte (t / 256) :: rest →
          receiveOk timeout ⟨rx, tx, s :: (idleTicks pre ++ tk :: post)⟩
            = some (decide (t = 1), ⟨rest, tx, post⟩))
      ∧ (∀ (timeout : Nat) (rx tx : List Byte) (s : Tick) (pre : List Nat) (tk : Tick)
          (post : List Tick),
          timeout < 4294967296 →
          (pre ≠ [] → rx ++ s.arrivals = []) →
          (∀ u ∈ pre, elapsed u s.time < timeout) →
          timeout ≤ elapsed tk.time s.time →
          receiveOk timeout ⟨rx, tx, s :: (idleTicks pre ++ tk :: post)⟩
            = some (false, ⟨rx ++ s.arrivals ++ tk.arrivals, tx, post⟩)) := by
  refine ⟨?_, ?_, ?_, ?_, ?_⟩
  · intro timeout w
    unfold receiveOk expectOk
    cases getResponse timeout w with
    | none => rfl
    | some p => rfl
  · intro timeout w w1
    unfold receiveOk
    cases getResponse timeout w with
    | none => simp
    | some p =>
      obtain ⟨⟨v⟩, w2⟩ := p
      simp [Response.Ok]
  · intro timeout w w1
    unfold receiveOk
    cases getResponse timeout w with
    | none => simp
    | some p =>
      obtain ⟨⟨v⟩, w2⟩ := p
      simp only [Response.Ok, Option.some.injEq, Prod.mk.injEq, decide_eq_false_iff_not,
        Response.mk.injEq]
      constructor
      · rintro ⟨hv, rfl⟩
        exact ⟨⟨v⟩, hv, rfl, rfl⟩
      · rintro ⟨r, hr, h1, rfl⟩
        subst h1
        exact ⟨hr, rfl⟩
  · intro timeout t rx tx s pre tk post rest ht h16 hq hpre hk hw
    have h := getResponse_word_gen timeout ht rx tx s pre tk post _ _ rest hq hpre hk hw
    rw [toByte_val_of_lt _ (Nat.mod_lt _ (by decide)), toByte_val_of_lt _ (by omega),
      (by omega : t % 256 + 256 * (t / 256) = t)] at h
    simp [receiveOk, h, Response.Ok]
  · intro timeout rx tx s pre tk post ht hq hpre hk
    simp [receiveOk, getResponse_timeout_gen timeout ht rx tx s pre tk post hq hpre hk,
      Response.Ok, Response.Error]

/-- C8: whenever the `getResponse` of `receiveString timeout` gives a tag
other than `String` (timeout, `Ok`, `Error`, `Data` or an unknown word),
`receiveString` returns the empty text, whatever follows the tag in the
stream, and leaves the port as `getResponse` left it: of the bytes that
were readable over the clock samples taken, it has read either none or
exactly the two tag bytes, and every byte after them is still queued. -/
theorem receiveString_empty_unless_String (timeout : Nat) (w w1 : World) (r : Response)
    (h : getResponse timeout w = some (r, w1)) (hr : r ≠ Response.String) :
    receiveString timeout w = some ([], w1)
      ∧ ∃ used : List Tick, w.clock = used ++ w1.clock
          ∧ (w.rx ++ arrivalsOf used = w1.rx
            ∨ ∃ b0 b1 : Byte, w.rx ++ arrivalsOf used = b0 :: b1 :: w1.rx
                ∧ r = ⟨b0.val + 256 * b1.val⟩) := by
  refine ⟨by simp [receiveString, h, hr], ?_⟩
  obtain ⟨used, hclock, _, hcase⟩ := getResponse_sound timeout w r w1 h
  refine ⟨used, hclock, ?_⟩
  rcases hcase with ⟨_, hq⟩ | hread
  · exact Or.inl hq
  · exact Or.inr hread

theorem receiveString_empty_unless_String_witness :
    getResponse 100 ⟨[], [], [⟨0, []⟩, ⟨5, [4, 0, 2, 0, 104, 105]⟩, ⟨6, [33]⟩]⟩
        = some (Response.Data, ⟨[2, 0, 104, 105], [], [⟨6, [33]⟩]⟩)
      ∧ Response.Data ≠ Response.String
      ∧ receiveString 100 ⟨[], [], [⟨0, []⟩, ⟨5, [4, 0, 2, 0, 104, 105]⟩, ⟨6, [33]⟩]⟩
        = some ([], ⟨[2, 0, 104, 105], [], [⟨6, [33]⟩]⟩) :=
  ⟨by decide, by decide,
    (receiveString_empty_unless_String 100 _ _ Response.Data (by decide) (by decide)).1⟩

/-! ## `receiveString` -/

/-- C9: for every declared length `N >= 1` and every body whose non-NUL
bytes number at least `N` and which is available at polls before the
deadline (the bytes `q` already readable and those arriving at the samples
`s`, `p`, `pre`), `receiveString` after a `String` tag returns exactly the
first `N` non-NUL bytes of the body: NUL bytes are skipped and do not count
toward `N`. -/
theorem receiveString_skips_nul (timeout N : Nat) (w w1 : World) (q tx : List Byte)
    (s p : Tick) (pre later : List Tick)
    (ht : timeout < 4294967296) (hN : 1 ≤ N)
    (h1 : getResponse timeout w = some (Response.String, w1))
    (h2 : read16 w1 = some (N, ⟨q, tx, s :: ((p :: pre) ++ later)⟩))
    (hearly : ∀ t ∈ p :: pre, elapsed t.time s.time < timeout)
    (hbody : N ≤ (stripNul (q ++ s.arrivals ++ arrivalsOf (p :: pre))).length) :
    ∃ w2 : World,
      receiveString timeout w
        = some ((stripNul (q ++ s.arrivals ++ arrivalsOf (p :: pre))).take N, w2) := by
  have hN0 : N ≠ 0 := by omega
  simp only [receiveString, h1, h2, ne_eq, not_true_eq_false, if_false, hN0, getTime_cons,
    Nat.mod_eq_of_lt ht]
  obtain ⟨w2, hrun⟩ := receiveStringLoop_complete timeout N (s.time % 4294967296) tx later
    (p :: pre) [] (q ++ s.arrivals) (fun h => by simp at h)
    (fun t hgt => by rw [elapsed_mod]; exact hearly t hgt) (by simpa using hN)
    (by simpa using hbody)
  refine ⟨w2, ?_⟩
  simp only [List.nil_append, List.append_assoc] at hrun ⊢
  exact hrun

theorem receiveString_skips_nul_witness :
    ∃ w2 : World,
      receiveString 100
          ⟨[], [], [⟨0, []⟩, ⟨1, [3, 0, 5, 0, 104, 101, 0, 108, 108, 111]⟩, ⟨2, []⟩, ⟨3, []⟩]⟩
        = some (bytesOf "hello", w2) :=
  receiveString_skips_nul 100 5
    ⟨[], [], [⟨0, []⟩, ⟨1, [3, 0, 5, 0, 104, 101, 0, 108, 108, 111]⟩, ⟨2, []⟩, ⟨3, []⟩]⟩
    ⟨[5, 0, 104, 101, 0, 108, 108, 111], [], [⟨2, []⟩, ⟨3, []⟩]⟩
    [104, 101, 0, 108, 108, 111] [] ⟨2, []⟩ ⟨3, []⟩ [] []
    (by decide) (by decide) (by decide) (by decide) (by decide) (by decide)

/-- C10: in every run of `receiveString` after a `String` tag with declared
length `N`, complete or cut short by the deadline, the returned text has
at most `N` bytes, holds no NUL byte and is the NUL-stripped sequence of
the body bytes `consumed` after the length field (so a prefix of the
NUL-stripped body).  When the deadline elapses first (sample `tk`, with
fewer than `N` non-NUL bytes readable at the polls before it), the call
still returns: the text is what was accumulated up to then, and no
failure is signalled. -/
theorem receiveString_partial_text (timeout N : Nat) (w w1 w2 : World)
    (h1 : getResponse timeout w = some (Response.String, w1))
    (h2 : read16 w1 = some (N, w2)) :
    (∀ (res : List Byte) (w3 : World), receiveString timeout w = some (res, w3) →
        res.length ≤ N ∧ (∀ b ∈ res, b.val ≠ 0)
          ∧ ∃ (used : List Tick) (consumed : List Byte),
              w2.clock = used ++ w3.clock ∧ w2.rx ++ arrivalsOf used = consumed ++ w3.rx
                ∧ res = stripNul consumed
                ∧ res <+: stripNul (w2.rx ++ arrivalsOf w2.clock))
      ∧ (∀ (q tx : List Byte) (s tk : Tick) (post : List Tick),
          w2 = ⟨q, tx, s :: tk :: post⟩ → timeout < 4294967296 → 1 ≤ N →
          timeout ≤ elapsed tk.time s.time →
          receiveString timeout w = some ([], ⟨q ++ s.arrivals ++ tk.arrivals, tx, post⟩))
      ∧ (∀ (q tx : List Byte) (s p : Tick) (pre : List Tick) (tk : Tick) (post : List Tick),
          w2 = ⟨q, tx, s :: ((p :: pre) ++ tk :: post)⟩ → timeout < 4294967296 →
          (∀ t ∈ p :: pre, elapsed t.time s.time < timeout) →
          timeout ≤ elapsed tk.time s.time →
          (stripNul (q ++ s.arrivals ++ arrivalsOf (p :: pre))).length < N →
          receiveString timeout w
            = some (stripNul (q ++ s.arrivals ++ arrivalsOf (p :: pre)),
                ⟨tk.arrivals, tx, post⟩)) := by
  refine ⟨?_, ?_, ?_⟩
  · intro res w3 h
    have key : ∃ (used : List Tick) (consumed : List Byte),
        w2.clock = used ++ w3.clock ∧ w2.rx ++ arrivalsOf used = consumed ++ w3.rx
          ∧ res = stripNul consumed ∧ res.length ≤ N := by
      simp only [receiveString, h1, h2, ne_eq, not_true_eq_false, if_false] at h
      by_cases hN : N = 0
      · simp only [hN, if_true, Option.some.injEq, Prod.mk.injEq] at h
        obtain ⟨hr, hw⟩ := h
        subst hr hw
        exact ⟨[], [], by simp, by simp [arrivalsOf], by simp [stripNul_nil], by simp⟩
      · simp only [hN, if_false] at h
        obtain ⟨rx, tx, clock⟩ := w2
        cases clock with
        | nil => simp [getTime] at h
        | cons s later =>
          simp only [getTime_cons] at h
          obtain ⟨used, consumed, hclock, hq, hr, hle, _⟩ :=
            receiveStringLoop_sound (timeout % 4294967296) N (s.time % 4294967296) _ []
              _ res w3 (by simpa using Nat.pos_of_ne_zero hN) h
          have hclock1 : later = used ++ w3.clock := hclock
          refine ⟨s :: used, consumed, by simp [hclock1], ?_, by simpa using hr, hle⟩
          simpa [arrivalsOf, List.append_assoc] using hq
    obtain ⟨used, consumed, hclock, hq, hr, hle⟩ := key
    refine ⟨hle, fun b hb => mem_stripNul consumed b (hr ▸ hb), used, consumed, hclock, hq, hr,
      ?_⟩
    rw [hclock, arrivalsOf_append, ← List.append_assoc, hq, stripNul_append, stripNul_append,
      List.append_assoc, hr]
    exact List.prefix_append _ _
  · intro q tx s tk post hw ht hN hk
    subst hw
    have hN0 : N ≠ 0 := by omega
    simp only [receiveString, h1, h2, ne_eq, not_true_eq_false, if_false, hN0, getTime_cons,
      Nat.mod_eq_of_lt ht, List.length_cons]
    rw [receiveStringLoop_deadline timeout N _ _ [] _ tx tk post (by rw [elapsed_mod]; exact hk)]
  · intro q tx s p pre tk post hw ht hearly hk hlen
    subst hw
    have hN0 : N ≠ 0 := by omega
    simp only [receiveString, h1, h2, ne_eq, not_true_eq_false, if_false, hN0, getTime_cons,
      Nat.mod_eq_of_lt ht]
    rw [receiveStringLoop_incomplete timeout N (s.time % 4294967296) tx (tk :: post) pre p []
      (q ++ s.arrivals) (fun t hgt => by rw [elapsed_mod]; exact hearly t hgt)
      (by simpa [List.append_assoc] using hlen)]
    rw [List.length_cons, receiveStringLoop_deadline timeout N _ _ _ _ tx tk post
      (by rw [elapsed_mod]; exact hk)]
    simp [List.append_assoc]

theorem receiveString_partial_text_witness :
    (∃ (used : List Tick) (consumed : List Byte),
        [⟨2, []⟩, ⟨3, [101, 0]⟩, ⟨200, [108]⟩, ⟨201, []⟩] = used ++ [(⟨201, []⟩ : Tick)]
          ∧ [104] ++ arrivalsOf used = consumed ++ [108]
          ∧ bytesOf "he" = stripNul consumed)
      ∧ receiveString 100
          ⟨[], [], [⟨0, []⟩, ⟨1, [3, 0, 5, 0, 104]⟩, ⟨2, []⟩, ⟨3, [101, 0]⟩, ⟨200, [108]⟩,
            ⟨201, []⟩]⟩
        = some (bytesOf "he", ⟨[108], [], [⟨201, []⟩]⟩) :=
  have h := receiveString_partial_text 100 5
    ⟨[], [], [⟨0, []⟩, ⟨1, [3, 0, 5, 0, 104]⟩, ⟨2, []⟩, ⟨3, [101, 0]⟩, ⟨200, [108]⟩,
      ⟨201, []⟩]⟩
    ⟨[5, 0, 104], [], [⟨2, []⟩, ⟨3, [101, 0]⟩, ⟨200, [108]⟩, ⟨201, []⟩]⟩
    ⟨[104], [], [⟨2, []⟩, ⟨3, [101, 0]⟩, ⟨200, [108]⟩, ⟨201, []⟩]⟩
    (by decide) (by decide)
  have hrun := h.2.2 [104] [] ⟨2, []⟩ ⟨3, [101, 0]⟩ [] ⟨200, [108]⟩ [⟨201, []⟩] rfl
    (by decide) (by decide) (by decide) (by decide)
  have hsound := h.1 (bytesOf "he") ⟨[108], [], [⟨201, []⟩]⟩ hrun
  ⟨by
    obtain ⟨_, _, used, consumed, hc, hq, hr, _⟩ := hsound
    exact ⟨used, consumed, hc, hq, hr⟩, hrun⟩

/-! ## `sendString` -/

/-- A format without NUL and without `%` is written as it is. -/
theorem formatOutput_plain :
    ∀ text : List Byte, (∀ b ∈ text, b.val ≠ 0 ∧ b.val ≠ 37) → formatOutput text = some text := by
  intro text
  induction text with
  | nil => intro _; rfl
  | cons c rest ih =>
    intro h
    have hc := h c (List.mem_cons_self _ _)
    have hrest := ih (fun b hb => h b (List.mem_cons_of_mem _ hb))
    cases rest with
    | nil => simp [formatOutput, hc.1, hc.2]
    | cons d rest => simp [formatOutput, hc.1, hc.2, hrest]

/-- The bytes `sendString` writes for a text without NUL and without `%`. -/
theorem sendString_plain (text rx tx : List Byte) (clock : List Tick)
    (h : ∀ b ∈ text, b.val ≠ 0 ∧ b.val ≠ 37) :
    sendString text ⟨rx, tx, clock⟩ = some ⟨rx, tx ++ text ++ [10], clock⟩ := by
  simp only [sendString, printf, formatOutput_plain text h, putc]
  rfl

/-! ## The copy loop of `readBuffer` -/

/-- The loop with nothing left to copy. -/
theorem readBufferLoop_done (timeout limit start fuel index : Nat) (buffer : Nat → Byte)
    (w : World) (h : limit ≤ index) :
    readBufferLoop timeout limit start fuel index buffer w = some (index, buffer, w) := by
  cases fuel <;> simp [readBufferLoop, Nat.not_lt.mpr h]

/-- An iteration whose clock sample is past the deadline ends the copy. -/
theorem readBufferLoop_deadline (timeout limit start n index : Nat) (buffer : Nat → Byte)
    (rx tx : List Byte) (t : Tick) (later : List Tick) (hi : index < limit)
    (hk : timeout ≤ elapsed (t.time % 4294967296) start) :
    readBufferLoop timeout limit start (n + 1) index buffer ⟨rx, tx, t :: later⟩
      = some (index, buffer, ⟨rx ++ t.arrivals, tx, later⟩) := by
  simp [readBufferLoop, hi, getTime_cons, hk]

/-- An iteration before the deadline stores the oldest waiting byte. -/
theorem readBufferLoop_copy (timeout limit start n index : Nat) (buffer : Nat → Byte)
    (rx tx : List Byte) (t : Tick) (later : List Tick) (c : Byte) (rest : List Byte)
    (hi : index < limit) (hk : elapsed (t.time % 4294967296) start < timeout)
    (hq : rx ++ t.arrivals = c :: rest) :
    readBufferLoop timeout limit start (n + 1) index buffer ⟨rx, tx, t :: later⟩
      = readBufferLoop timeout limit start n (index + 1) (Function.update buffer index c)
          ⟨rest, tx, later⟩ := by
  simp [readBufferLoop, hi, getTime_cons, Nat.not_le.mpr hk, hq, getc_cons]

/-- Every result of the copy loop: the samples `used` were taken, the
bytes `copied` were read from the head of the stream and stored at
`index`, `index + 1`, ..., no other position of the buffer changed, and a
count below `limit` means that the last sample was past the deadline. -/
theorem readBufferLoop_sound (timeout limit start : Nat) :
    ∀ (fuel index : Nat) (buffer : Nat → Byte) (w : World) (k : Nat) (buffer1 : Nat → Byte)
      (w1 : World), index ≤ limit →
      readBufferLoop timeout limit start fuel index buffer w = some (k, buffer1, w1) →
      ∃ (used : List Tick) (copied : List Byte),
        w.clock = used ++ w1.clock ∧ w.rx ++ arrivalsOf used = copied ++ w1.rx
          ∧ k = index + copied.length ∧ k ≤ limit ∧ w1.tx = w.tx
          ∧ (∀ j, j < copied.length → copied[j]? = some (buffer1 (index + j)))
          ∧ (∀ i, i < index ∨ k ≤ i → buffer1 i = buffer i)
          ∧ (k < limit → ∃ (mid : List Tick) (t : Tick),
              used = mid ++ [t] ∧ timeout ≤ elapsed (t.time % 4294967296) start) := by
  intro fuel
  induction fuel with
  | zero =>
    intro index buffer w k buffer1 w1 hle h
    by_cases hi : index < limit
    · simp [readBufferLoop, hi] at h
    · simp only [readBufferLoop, hi, if_false, Option.some.injEq, Prod.mk.injEq] at h
      obtain ⟨hk, hb, hw⟩ := h
      subst hk hb hw
      exact ⟨[], [], by simp, by simp [arrivalsOf], by simp, hle, rfl, by simp,
        fun _ _ => rfl, fun hlt => absurd hlt hi⟩
  | succ n ih =>
    intro index buffer w k buffer1 w1 hle h
    by_cases hi : index < limit
    · obtain ⟨rx, tx, clock⟩ := w
      cases clock with
      | nil => simp [readBufferLoop, hi, getTime] at h
      | cons t later =>
        by_cases hk : timeout ≤ elapsed (t.time % 4294967296) start
        · rw [readBufferLoop_deadline timeout limit start n index buffer rx tx t later hi hk] at h
          simp only [Option.some.injEq, Prod.mk.injEq] at h
          obtain ⟨hk1, hb, hw⟩ := h
          subst hk1 hb hw
          exact ⟨[t], [], rfl, by simp [arrivalsOf], by simp, hle, rfl, by simp,
            fun _ _ => rfl, fun _ => ⟨[], t, rfl, hk⟩⟩
        · cases hq : rx ++ t.arrivals with
          | nil =>
            simp [readBufferLoop, hi, getTime_cons, hk, hq, getc] at h
          | cons c rest =>
            rw [readBufferLoop_copy timeout limit start n index buffer rx tx t later c rest hi
              (Nat.not_le.mp hk) hq] at h
            obtain ⟨used, copied, hclock, hstream, hcount, hkle, htx, hcopy, hkeep, hdead⟩ :=
              ih (index + 1) _ _ k buffer1 w1 hi h
            have hclock1 : later = used ++ w1.clock := hclock
            have hstream1 : rest ++ arrivalsOf used = copied ++ w1.rx := hstream
            refine ⟨t :: used, c :: copied, by simp [hclock1], ?_, ?_, hkle, htx, ?_, ?_, ?_⟩
            · simp only [arrivalsOf, ← List.append_assoc, hq]
              simp [hstream1]
            · simp only [List.length_cons]; omega
            · intro j hj
              cases j with
              | zero =>
                have := hkeep index (Or.inl (Nat.lt_succ_self _))
                simp [this]
              | succ j =>
                have := hcopy j (by simpa using hj)
                simp only [List.getElem?_cons_succ]
                rw [this]
                congr 2
                omega
            · intro i hcase
              have hne : i ≠ index := by omega
              rw [hkeep i (by omega), Function.update_noteq hne]
            · intro hlt
              obtain ⟨mid, t1, hu, hd⟩ := hdead hlt
              exact ⟨t :: mid, t1, by simp [hu], hd⟩
    · rw [readBufferLoop_done timeout limit start (n + 1) index buffer w (Nat.not_lt.mp hi)] at h
      simp only [Option.some.injEq, Prod.mk.injEq] at h
      obtain ⟨hk, hb, hw⟩ := h
      subst hk hb hw
      exact ⟨[], [], by simp, by simp [arrivalsOf], by simp, hle, rfl, by simp,
        fun _ _ => rfl, fun hlt => absurd hlt hi⟩

/-- The copy with the bytes waiting and every poll before the deadline:
all of `limit` is reached, one clock sample and one byte per iteration. -/
theorem readBufferLoop_run (timeout limit start : Nat) (tx : List Byte) (later : List Tick) :
    ∀ (pre : List Tick) (fuel index : Nat) (buffer : Nat → Byte) (rx : List Byte),
      index + pre.length = limit → pre.length ≤ fuel → pre.length ≤ rx.length →
      (∀ t ∈ pre, elapsed (t.time % 4294967296) start < timeout) →
      ∃ buffer1 : Nat → Byte,
        readBufferLoop timeout limit start fuel index buffer ⟨rx, tx, pre ++ later⟩
          = some (limit, buffer1, ⟨rx.drop pre.length ++ arrivalsOf pre, tx, later⟩) := by
  intro pre
  induction pre with
  | nil =>
    intro fuel index buffer rx hlim _ _ _
    simp only [List.length_nil, Nat.add_zero] at hlim
    refine ⟨buffer, ?_⟩
    rw [readBufferLoop_done timeout limit start fuel index buffer _ (Nat.le_of_eq hlim.symm)]
    simp [arrivalsOf, hlim]
  | cons t pre ih =>
    intro fuel index buffer rx hlim hfuel hrx hearly
    simp only [List.length_cons] at hlim hfuel hrx
    cases fuel with
    | zero => omega
    | succ n =>
      cases rx with
      | nil => simp at hrx
      | cons c rest =>
        simp only [List.length_cons] at hrx
        have hstep := readBufferLoop_copy timeout limit start n index buffer (c :: rest) tx t
          (pre ++ later) c (rest ++ t.arrivals) (by omega)
          (hearly t (List.mem_cons_self _ _)) rfl
        obtain ⟨buffer1, hrun⟩ := ih n (index + 1) (Function.update buffer index c)
          (rest ++ t.arrivals) (by omega) (by omega) (by simp; omega)
          (fun u hu => hearly u (List.mem_cons_of_mem _ hu))
        refine ⟨buffer1, ?_⟩
        rw [List.cons_append, hstep, hrun]
        simp only [List.length_cons, List.drop_succ_cons, arrivalsOf]
        rw [List.drop_append_of_le_length (by omega)]
        simp [List.append_assoc]

/-- Every result of `readBuffer` on a queue that starts with the length
bytes `l0`, `l1`. -/
theorem readBuffer_sound (buffer : Nat → Byte) (bufferSize timeout N : Nat)
    (l0 l1 : Byte) (q tx : List Byte) (clock : List Tick)
    (ht : timeout < 4294967296) (hN : l0.val + 256 * l1.val = N)
    (k : Nat) (buffer1 : Nat → Byte) (w1 : World)
    (h : readBuffer buffer bufferSize timeout ⟨l0 :: l1 :: q, tx, clock⟩
      = some (k, buffer1, w1)) :
    k ≤ min N bufferSize
      ∧ ∃ (used : List Tick) (copied : List Byte),
          clock = used ++ w1.clock ∧ q ++ arrivalsOf used = copied ++ w1.rx
            ∧ copied.length = k ∧ w1.tx = tx
            ∧ (∀ j, j < k → copied[j]? = some (buffer1 j))
            ∧ (∀ i, k ≤ i → buffer1 i = buffer i)
            ∧ (k < min N bufferSize → ∃ (s : Tick) (mid : List Tick) (t : Tick),
                used = s :: (mid ++ [t]) ∧ timeout ≤ elapsed t.time s.time) := by
  simp only [readBuffer, read16_cons_cons, hN, Nat.mod_eq_of_lt ht] at h
  cases clock with
  | nil => simp [getTime] at h
  | cons s later =>
    simp only [getTime_cons] at h
    obtain ⟨used, copied, hclock, hstream, hcount, hkle, htx, hcopy, hkeep, hdead⟩ :=
      readBufferLoop_sound timeout (min N bufferSize) (s.time % 4294967296) _ 0 buffer _ k
        buffer1 w1 (Nat.zero_le _) h
    have hclock1 : later = used ++ w1.clock := hclock
    have hlen : copied.length = k := by omega
    refine ⟨hkle, s :: used, copied, by simp [hclock1], ?_, hlen, htx, ?_, ?_, ?_⟩
    · simpa [arrivalsOf, List.append_assoc] using hstream
    · intro j hj
      have := hcopy j (by omega)
      simpa using this
    · intro i hi
      exact hkeep i (Or.inr hi)
    · intro hlt
      obtain ⟨mid, t, hu, hd⟩ := hdead hlt
      exact ⟨s, mid, t, by rw [hu], by rw [elapsed_mod] at hd; exact hd⟩

/-- The run of `readBuffer` when the bytes to copy are waiting and the
polls are before the deadline. -/
theorem readBuffer_full (buffer : Nat → Byte) (bufferSize timeout N : Nat)
    (l0 l1 : Byte) (q tx : List Byte) (s : Tick) (pre later : List Tick)
    (ht : timeout < 4294967296) (hN : l0.val + 256 * l1.val = N)
    (hpre : pre.length = min N bufferSize)
    (havail : min N bufferSize ≤ (q ++ s.arrivals).length)
    (hearly : ∀ t ∈ pre, elapsed t.time s.time < timeout) :
    ∃ buffer1 : Nat → Byte,
      readBuffer buffer bufferSize timeout ⟨l0 :: l1 :: q, tx, s :: (pre ++ later)⟩
          = some (min N bufferSize, buffer1,
              ⟨(q ++ s.arrivals).drop (min N bufferSize) ++ arrivalsOf pre, tx, later⟩)
        ∧ (∀ j, j < min N bufferSize → (q ++ s.arrivals)[j]? = some (buffer1 j))
        ∧ (∀ i, min N bufferSize ≤ i → buffer1 i = buffer i) := by
  obtain ⟨buffer1, hrun⟩ := readBufferLoop_run timeout (min N bufferSize) (s.time % 4294967296)
    tx later pre (min N bufferSize) 0 buffer (q ++ s.arrivals) (by omega) (by omega)
    (by omega) (fun t hgt => by rw [elapsed_mod]; exact hearly t hgt)
  have hres : readBuffer buffer bufferSize timeout ⟨l0 :: l1 :: q, tx, s :: (pre ++ later)⟩
      = some (min N bufferSize, buffer1,
          ⟨(q ++ s.arrivals).drop (min N bufferSize) ++ arrivalsOf pre, tx, later⟩) := by
    simp only [readBuffer, read16_cons_cons, hN, Nat.mod_eq_of_lt ht, getTime_cons]
    rw [hrun, hpre]
  obtain ⟨_, used, copied, hclock, hstream, hlen, _, hcopy, hkeep, _⟩ :=
    readBuffer_sound buffer bufferSize timeout N l0 l1 q tx _ ht hN _ _ _ hres
  refine ⟨buffer1, hres, ?_, hkeep⟩
  intro j hj
  have hused : used = s :: pre := by
    have h1 : (s :: pre) ++ later = used ++ later := hclock
    exact (List.append_cancel_right h1).symm
  subst hused
  have hstream1 : (q ++ s.arrivals) ++ arrivalsOf pre
      = (copied ++ (q ++ s.arrivals).drop (min N bufferSize)) ++ arrivalsOf pre := by
    simpa [arrivalsOf, List.append_assoc] using hstream
  have hbody := List.append_cancel_right hstream1
  rw [← hcopy j hj, hbody, List.getElem?_append_left (by omega)]

/-! ## Commands and replies -/

/-- What `sendCommand` does, for every command and port state. -/
theorem sendCommand_eq (command : Commands) (rx tx : List Byte) (clock : List Tick) :
    sendCommand command ⟨rx, tx, clock⟩
      = some ⟨[], tx ++ [toByte (command.code % 256), toByte (command.code / 256)], clock⟩ := by
  have hc := Commands.code_le command
  simp only [sendCommand, readable, flushLoop_eq rx.length rx tx clock (Nat.le_refl _), write16_eq]
  rw [Nat.mod_eq_of_lt (by omega : command.code < 65536)]

/-- The bytes of a 16-bit word recompose to the word. -/
theorem word_of_bytes (t : Nat) (h : t < 65536) :
    (toByte (t % 256)).val + 256 * (toByte (t / 256)).val = t := by
  rw [toByte_val_of_lt _ (Nat.mod_lt _ (by decide)), toByte_val_of_lt _ (by omega)]
  omega

/-- The two halves combined as `getSizeHTTP` does. -/
theorem halves_or (low high : Nat) (hl : low < 65536) (hh : high < 65536) :
    ((high <<< 16) ||| low) % 4294967296 = high * 65536 + low := by
  have h16 : low < 2 ^ 16 := hl
  rw [Nat.shiftLeft_eq, Nat.mul_comm, ← Nat.mul_add_lt_is_or h16]
  omega

/-- The two halves combined as `getRSSI` does. -/
theorem halves_or_u32 (low high : Nat) (hl : low < 65536) (hh : high < 65536) :
    (((high <<< 16) % 4294967296) ||| ((low <<< 0) % 4294967296)) = high * 65536 + low := by
  have h16 : low < 2 ^ 16 := hl
  have e1 : (high <<< 16) % 4294967296 = 2 ^ 16 * high := by
    rw [Nat.shiftLeft_eq]; omega
  have e2 : (low <<< 0) % 4294967296 = low := by
    rw [Nat.shiftLeft_eq]; omega
  rw [e1, e2, ← Nat.mul_add_lt_is_or h16]
  omega

/-- The helper `receiveOk` when a word is read before the deadline. -/
theorem receiveOk_word_gen (timeout : Nat) (ht : timeout < 4294967296) (t : Nat)
    (h16 : t < 65536) (rx tx : List Byte) (s : Tick) (pre : List Nat) (tk : Tick)
    (post : List Tick) (rest : List Byte)
    (hq : pre ≠ [] → rx ++ s.arrivals = [])
    (hpre : ∀ u ∈ pre, elapsed u s.time < timeout)
    (hk : elapsed tk.time s.time < timeout)
    (hw : rx ++ s.arrivals ++ tk.arrivals = toByte (t % 256) :: toByte (t / 256) :: rest) :
    receiveOk timeout ⟨rx, tx, s :: (idleTicks pre ++ tk :: post)⟩
      = some (decide (t = 1), ⟨rest, tx, post⟩) := by
  have h := getResponse_word_gen timeout ht rx tx s pre tk post _ _ rest hq hpre hk hw
  rw [word_of_bytes t h16] at h
  simp [receiveOk, h, Response.Ok]

/-- The helper `receiveOk` when the deadline passes first. -/
theorem receiveOk_timeout_gen (timeout : Nat) (ht : timeout < 4294967296)
    (rx tx : List Byte) (s : Tick) (pre : List Nat) (tk : Tick) (post : List Tick)
    (hq : pre ≠ [] → rx ++ s.arrivals = [])
    (hpre : ∀ u ∈ pre, elapsed u s.time < timeout)
    (hk : timeout ≤ elapsed tk.time s.time) :
    receiveOk timeout ⟨rx, tx, s :: (idleTicks pre ++ tk :: post)⟩
      = some (false, ⟨rx ++ s.arrivals ++ tk.arrivals, tx, post⟩) := by
  simp [receiveOk, getResponse_timeout_gen timeout ht rx tx s pre tk post hq hpre hk,
    Response.Ok, Response.Error]

/-! ## Where `receiveString` stops -/

/-- The inner loop on a queue whose byte `c` completes the text: it stops
right after `c`. -/
theorem receiveStringInner_exact (size : Nat) (tx : List Byte) (clock : List Tick) (c : Byte)
    (tail : List Byte) (hc : c.val ≠ 0) :
    ∀ (init result : List Byte), (result ++ stripNul init).length + 1 = size →
      receiveStringInner size (init ++ c :: tail).length result ⟨init ++ c :: tail, tx, clock⟩
        = some (result ++ stripNul init ++ [c], ⟨tail, tx, clock⟩, true) := by
  intro init
  induction init with
  | nil =>
    intro result h
    simp only [stripNul_nil, List.append_nil, List.nil_append] at h ⊢
    have hfull : (result ++ [c]).length = size := by simpa using h
    simp only [List.length_cons, receiveStringInner, readable, Nat.succ_pos, if_true,
      getc_cons, hc, if_false, hfull]
  | cons d init ih =>
    intro result h
    by_cases hd : d.val = 0
    · rw [stripNul_cons_nul d init hd] at h ⊢
      simp only [List.cons_append, List.length_cons, receiveStringInner, readable,
        Nat.succ_pos, if_true, getc_cons, hd]
      exact ih result h
    · rw [stripNul_cons_pos d init hd] at h ⊢
      have hne : ¬ (result ++ [d]).length = size := by
        simp at h ⊢
        omega
      simp only [List.cons_append, List.length_cons, receiveStringInner, readable,
        Nat.succ_pos, if_true, getc_cons, hd, if_false, hne]
      have h1 : (result ++ [d] ++ stripNul init).length + 1 = size := by
        simpa [List.append_assoc] using h
      refine (ih (result ++ [d]) h1).trans ?_
      simp [List.append_assoc]

/-- A run of the inner loop that completes the text took a prefix of the
queue ending with the non-NUL byte appended last, and left the rest. -/
theorem receiveStringInner_last (size : Nat) (tx : List Byte) (clock : List Tick) :
    ∀ (rx result res : List Byte) (w1 : World), result.length < size →
      receiveStringInner size rx.length result ⟨rx, tx, clock⟩ = some (res, w1, true) →
      ∃ (init : List Byte) (c : Byte),
        rx = init ++ c :: w1.rx ∧ c.val ≠ 0 ∧ res = result ++ stripNul init ++ [c] := by
  intro rx
  induction rx with
  | nil =>
    intro result res w1 _ h
    simp [receiveStringInner, readable] at h
  | cons d rest ih =>
    intro result res w1 h0 h
    by_cases hd : d.val = 0
    · simp only [List.length_cons, receiveStringInner, readable, Nat.succ_pos, if_true,
        getc_cons, hd] at h
      obtain ⟨init, c, hsplit, hc, hres⟩ := ih result res w1 h0 h
      exact ⟨d :: init, c, by simp [hsplit], hc, by rw [stripNul_cons_nul d init hd]; exact hres⟩
    · by_cases hfull : (result ++ [d]).length = size
      · simp only [List.length_cons, receiveStringInner, readable, Nat.succ_pos, if_true,
          getc_cons, hd, if_false, hfull, Option.some.injEq, Prod.mk.injEq, and_true] at h
        obtain ⟨hr, hw⟩ := h
        subst hr hw
        exact ⟨[], d, rfl, hd, by simp [stripNul_nil]⟩
      · simp only [List.length_cons, receiveStringInner, readable, Nat.succ_pos, if_true,
          getc_cons, hd, if_false, hfull] at h
        have hlt : (result ++ [d]).length < size := by
          simp only [List.length_append, List.length_singleton] at hfull ⊢
          omega
        obtain ⟨init, c, hsplit, hc, hres⟩ := ih (result ++ [d]) res w1 hlt h
        refine ⟨d :: init, c, by simp [hsplit], hc, ?_⟩
        rw [stripNul_cons_pos d init hd, hres]
        simp [List.append_assoc]

/-- An outer iteration before the deadline whose queue holds the byte `c`
that completes the text returns there and leaves what follows `c`. -/
theorem receiveStringLoop_exact (timeout size start n : Nat) (result rx tx : List Byte)
    (t : Tick) (later : List Tick) (init : List Byte) (c : Byte) (tail : List Byte)
    (hk : elapsed (t.time % 4294967296) start < timeout)
    (hq : rx ++ t.arrivals = init ++ c :: tail) (hc : c.val ≠ 0)
    (hlen : (result ++ stripNul init).length + 1 = size) :
    receiveStringLoop timeout size start (n + 1) result ⟨rx, tx, t :: later⟩
      = some (result ++ stripNul init ++ [c], ⟨tail, tx, later⟩) := by
  simp only [receiveStringLoop, getTime_cons, readable, ge_iff_le, Nat.not_le.mpr hk, if_false]
  rw [hq, receiveStringInner_exact size tx later c tail hc init result hlen]

/-- Every run of the outer loop that returns a text of the declared size
read the stream up to and including the byte appended last. -/
theorem receiveStringLoop_last (timeout size start : Nat) :
    ∀ (fuel : Nat) (result : List Byte) (w : World) (res : List Byte) (w1 : World),
      result.length < size →
      receiveStringLoop timeout size start fuel result w = some (res, w1) →
      res.length = size →
      ∃ (used : List Tick) (init : List Byte) (c : Byte),
        w.clock = used ++ w1.clock ∧ w.rx ++ arrivalsOf used = init ++ c :: w1.rx
          ∧ c.val ≠ 0 ∧ res = result ++ stripNul init ++ [c] := by
  intro fuel
  induction fuel with
  | zero =>
    intro result w res w1 _ h
    simp [receiveStringLoop] at h
  | succ n ih =>
    intro result w res w1 h0 h hsize
    obtain ⟨rx, tx, clock⟩ := w
    cases clock with
    | nil => simp [receiveStringLoop, getTime] at h
    | cons t later =>
      by_cases hk : timeout ≤ elapsed (t.time % 4294967296) start
      · rw [receiveStringLoop_deadline timeout size start n result rx tx t later hk] at h
        simp only [Option.some.injEq, Prod.mk.injEq] at h
        obtain ⟨hres, _⟩ := h
        subst hres
        omega
      · obtain ⟨consumed, remaining, res0, flag, hrun, hsplit, hres, hf, _⟩ :=
          receiveStringInner_spec size tx later (rx ++ t.arrivals) result h0
        simp only [receiveStringLoop, getTime_cons, readable, ge_iff_le, hk, if_false] at h
        cases flag with
        | true =>
          obtain ⟨init, c, hq, hc, hlast⟩ := receiveStringInner_last size tx later
            (rx ++ t.arrivals) result res0 ⟨remaining, tx, later⟩ h0 hrun
          rw [hrun] at h
          simp only [Option.some.injEq, Prod.mk.injEq] at h
          obtain ⟨hr, hw⟩ := h
          subst hr hw
          exact ⟨[t], init, c, rfl, by simpa [arrivalsOf] using hq, hc, hlast⟩
        | false =>
          obtain ⟨hrem, hlen⟩ := hf rfl
          subst hrem
          rw [hrun] at h
          simp only at h
          obtain ⟨used, init, c, hclock, hq, hc, hr⟩ := ih res0 _ res w1 hlen h hsize
          have hclock1 : later = used ++ w1.clock := hclock
          simp only [List.nil_append] at hq
          simp only [List.append_nil] at hsplit
          refine ⟨t :: used, consumed ++ init, c, by simp [hclock1], ?_, hc, ?_⟩
          · simp only [arrivalsOf, ← List.append_assoc, hsplit]
            rw [List.append_assoc, hq]
          · rw [hr, hres, stripNul_append]
            simp [List.append_assoc]

/-- C11: when `receiveString` completes with `N` non-NUL bytes it has read
the body only up to and including the byte `c` that became the `N`-th
character of the text: all the bytes after `c` (trailing NUL bytes, the
start of a following frame) are left unread in the queue.  This holds for
every completed run, and the runs are given for a body that is completed
at the first poll and for one that is completed at a later poll. -/
theorem receiveString_stops_at_last_byte (timeout N : Nat) (w w1 w2 : World)
    (h1 : getResponse timeout w = some (Response.String, w1))
    (h2 : read16 w1 = some (N, w2)) (hN : 1 ≤ N) :
    (∀ (res : List Byte) (w3 : World), receiveString timeout w = some (res, w3) →
        res.length = N →
        ∃ (used : List Tick) (init : List Byte) (c : Byte),
          w2.clock = used ++ w3.clock ∧ w2.rx ++ arrivalsOf used = init ++ c :: w3.rx
            ∧ c.val ≠ 0 ∧ res = stripNul init ++ [c])
      ∧ (∀ (q tx : List Byte) (s p : Tick) (later : List Tick) (init : List Byte) (c : Byte)
          (tail : List Byte),
          w2 = ⟨q, tx, s :: p :: later⟩ → timeout < 4294967296 →
          elapsed p.time s.time < timeout →
          q ++ s.arrivals ++ p.arrivals = init ++ c :: tail → c.val ≠ 0 →
          (stripNul init).length + 1 = N →
          receiveString timeout w = some (stripNul init ++ [c], ⟨tail, tx, later⟩))
      ∧ (∀ (q tx : List Byte) (s p0 : Tick) (pre : List Tick) (p : Tick) (later : List Tick)
          (init : List Byte) (c : Byte) (tail : List Byte),
          w2 = ⟨q, tx, s :: ((p0 :: pre) ++ p :: later)⟩ → timeout < 4294967296 →
          (∀ t ∈ p0 :: pre, elapsed t.time s.time < timeout) →
          elapsed p.time s.time < timeout →
          p.arrivals = init ++ c :: tail → c.val ≠ 0 →
          (stripNul (q ++ s.arrivals ++ arrivalsOf (p0 :: pre)) ++ stripNul init).length + 1 = N →
          receiveString timeout w
            = some (stripNul (q ++ s.arrivals ++ arrivalsOf (p0 :: pre)) ++ stripNul init ++ [c],
                ⟨tail, tx, later⟩)) := by
  have hN0 : N ≠ 0 := by omega
  refine ⟨?_, ?_, ?_⟩
  · intro res w3 h hlen
    simp only [receiveString, h1, h2, ne_eq, not_true_eq_false, if_false, hN0] at h
    obtain ⟨rx, tx, clock⟩ := w2
    cases clock with
    | nil => simp [getTime] at h
    | cons s later =>
      simp only [getTime_cons] at h
      obtain ⟨used, init, c, hclock, hq, hc, hr⟩ :=
        receiveStringLoop_last (timeout % 4294967296) N (s.time % 4294967296) _ [] _ res w3
          (by simpa using hN) h hlen
      have hclock1 : later = used ++ w3.clock := hclock
      refine ⟨s :: used, init, c, by simp [hclock1], ?_, hc, by simpa using hr⟩
      simpa [arrivalsOf, List.append_assoc] using hq
  · intro q tx s p later init c tail hw ht hk hq hc hlen
    subst hw
    simp only [receiveString, h1, h2, ne_eq, not_true_eq_false, if_false, hN0, getTime_cons,
      Nat.mod_eq_of_lt ht, List.length_cons]
    rw [receiveStringLoop_exact timeout N _ _ [] (q ++ s.arrivals) tx p later init c tail
      (by rw [elapsed_mod]; exact hk) hq hc (by simpa using hlen)]
    simp
  · intro q tx s p0 pre p later init c tail hw ht hearly hk hq hc hlen
    subst hw
    simp only [receiveString, h1, h2, ne_eq, not_true_eq_false, if_false, hN0, getTime_cons,
      Nat.mod_eq_of_lt ht]
    have hshort : ([] ++ stripNul (q ++ s.arrivals ++ arrivalsOf (p0 :: pre))).length < N := by
      simp only [List.length_append, List.nil_append] at hlen ⊢
      omega
    rw [receiveStringLoop_incomplete timeout N (s.time % 4294967296) tx (p :: later) pre p0 []
      (q ++ s.arrivals) (fun t hgt => by rw [elapsed_mod]; exact hearly t hgt) hshort]
    rw [List.length_cons, receiveStringLoop_exact timeout N _ _ _ [] tx p later init c tail
      (by rw [elapsed_mod]; exact hk) (by simpa using hq) hc (by simpa using hlen)]
    simp

theorem receiveString_stops_at_last_byte_witness :
    receiveString 100
        ⟨[], [], [⟨0, []⟩, ⟨1, [3, 0, 5, 0, 104, 101, 0, 108]⟩, ⟨2, []⟩, ⟨3, []⟩,
          ⟨4, [108, 111, 0, 0, 1, 0]⟩, ⟨5, [9]⟩]⟩
      = some (bytesOf "hello", ⟨[0, 0, 1, 0], [], [⟨5, [9]⟩]⟩) :=
  (receiveString_stops_at_last_byte 100 5
    ⟨[], [], [⟨0, []⟩, ⟨1, [3, 0, 5, 0, 104, 101, 0, 108]⟩, ⟨2, []⟩, ⟨3, []⟩,
      ⟨4, [108, 111, 0, 0, 1, 0]⟩, ⟨5, [9]⟩]⟩
    ⟨[5, 0, 104, 101, 0, 108], [], [⟨2, []⟩, ⟨3, []⟩, ⟨4, [108, 111, 0, 0, 1, 0]⟩, ⟨5, [9]⟩]⟩
    ⟨[104, 101, 0, 108], [], [⟨2, []⟩, ⟨3, []⟩, ⟨4, [108, 111, 0, 0, 1, 0]⟩, ⟨5, [9]⟩]⟩
    (by decide) (by decide) (by decide)).2.2
    [104, 101, 0, 108] [] ⟨2, []⟩ ⟨3, []⟩ [] ⟨4, [108, 111, 0, 0, 1, 0]⟩ [⟨5, [9]⟩]
    [108] 111 [0, 0, 1, 0] rfl (by decide) (by decide) (by decide) rfl (by decide) (by decide)

/-- C12 (the code departs from it): `sendString` should write the bytes of
the text verbatim, followed by one `\n`.  The code passes the text to
`printf` as the format, so for the text `%%` it writes one `%` and the
`\n` (two bytes instead of three), for the text `a`, NUL, `b` it writes
only `a` and the `\n`, and for the text `50%` the call has no defined
behaviour. -/
theorem sendString_format_not_verbatim :
    sendString (bytesOf "%%") ⟨[], [], []⟩ = some ⟨[], [37, 10], []⟩
      ∧ sendString (bytesOf "%%") ⟨[], [], []⟩ ≠ some ⟨[], bytesOf "%%" ++ [10], []⟩
      ∧ sendString [97, 0, 98] ⟨[], [], []⟩ = some ⟨[], [97, 10], []⟩
      ∧ sendString (bytesOf "50%") ⟨[], [], []⟩ = none := by
  refine ⟨by decide, by decide, by decide, by decide⟩

/-! ## `readBuffer` -/

/-- C13: for every declared length `N` (the two length bytes `l0`, `l1`),
capacity `bufferSize` and timeout, `readBuffer` takes the two length bytes
and returns a count `k <= min N bufferSize` such that the buffer positions
`0 .. k-1` hold the first `k` payload bytes of the stream in order (the
positions from `k` on are unchanged, the rest of the stream stays queued);
a count below `min N bufferSize` only comes with a clock sample past the
deadline, and when the payload is waiting and the polls are before the
deadline the call returns `k = min N bufferSize`. -/
theorem readBuffer_copies_payload (buffer : Nat → Byte) (bufferSize timeout N : Nat)
    (l0 l1 : Byte) (q tx : List Byte) (clock : List Tick)
    (ht : timeout < 4294967296) (hN : l0.val + 256 * l1.val = N) :
    (∀ (k : Nat) (buffer1 : Nat → Byte) (w1 : World),
        readBuffer buffer bufferSize timeout ⟨l0 :: l1 :: q, tx, clock⟩ = some (k, buffer1, w1) →
        k ≤ min N bufferSize
          ∧ ∃ (used : List Tick) (copied : List Byte),
              clock = used ++ w1.clock ∧ q ++ arrivalsOf used = copied ++ w1.rx
                ∧ copied.length = k ∧ w1.tx = tx
                ∧ (∀ j, j < k → copied[j]? = some (buffer1 j))
                ∧ (∀ i, k ≤ i → buffer1 i = buffer i)
                ∧ (k < min N bufferSize → ∃ (s : Tick) (mid : List Tick) (t : Tick),
                    used = s :: (mid ++ [t]) ∧ timeout ≤ elapsed t.time s.time))
      ∧ (∀ (s : Tick) (pre later : List Tick),
          clock = s :: (pre ++ later) → pre.length = min N bufferSize →
          min N bufferSize ≤ (q ++ s.arrivals).length →
          (∀ t ∈ pre, elapsed t.time s.time < timeout) →
          ∃ buffer1 : Nat → Byte,
            readBuffer buffer bufferSize timeout ⟨l0 :: l1 :: q, tx, clock⟩
                = some (min N bufferSize, buffer1,
                    ⟨(q ++ s.arrivals).drop (min N bufferSize) ++ arrivalsOf pre, tx, later⟩)
              ∧ (∀ j, j < min N bufferSize → (q ++ s.arrivals)[j]? = some (buffer1 j))
              ∧ (∀ i, min N bufferSize ≤ i → buffer1 i = buffer i)) := by
  refine ⟨fun k buffer1 w1 h =>
    readBuffer_sound buffer bufferSize timeout N l0 l1 q tx clock ht hN k buffer1 w1 h, ?_⟩
  intro s pre later hclock hpre havail hearly
  subst hclock
  exact readBuffer_full buffer bufferSize timeout N l0 l1 q tx s pre later ht hN hpre havail
    hearly

theorem readBuffer_copies_payload_witness :
    ∃ buffer1 : Nat → Byte,
      readBuffer (fun _ => 0) 5 100
          ⟨[3, 0, 10, 11, 12, 99], [], [⟨0, []⟩, ⟨1, []⟩, ⟨2, []⟩, ⟨3, []⟩, ⟨4, []⟩]⟩
        = some (3, buffer1, ⟨[99], [], [⟨4, []⟩]⟩)
      ∧ (∀ j, j < 3 → ([10, 11, 12, 99] : List Byte)[j]? = some (buffer1 j))
      ∧ (∀ i, 3 ≤ i → buffer1 i = 0) :=
  (readBuffer_copies_payload (fun _ => 0) 5 100 3 3 0 [10, 11, 12, 99] []
    [⟨0, []⟩, ⟨1, []⟩, ⟨2, []⟩, ⟨3, []⟩, ⟨4, []⟩] (by decide) (by decide)).2
    ⟨0, []⟩ [⟨1, []⟩, ⟨2, []⟩, ⟨3, []⟩] [⟨4, []⟩] rfl (by decide) (by decide) (by decide)

/-- C14, as the claim has it, fails: with declared length 3 and capacity 2
(payload 10, 11, 12, then the byte 99 of the next frame) `readBuffer`
returns 2 and the payload byte 12 is still the next one readable; the byte
99 that follows the frame is not. -/
theorem readBuffer_drain_counterexample :
    (readBuffer (fun _ => 0) 2 100
        ⟨[3, 0, 10, 11, 12, 99], [], [⟨0, []⟩, ⟨1, []⟩, ⟨2, []⟩, ⟨3, []⟩]⟩).map
          (fun r => (r.1, r.2.2))
        = some (2, ⟨[12, 99], [], [⟨3, []⟩]⟩)
      ∧ (readBuffer (fun _ => 0) 2 100
        ⟨[3, 0, 10, 11, 12, 99], [], [⟨0, []⟩, ⟨1, []⟩, ⟨2, []⟩, ⟨3, []⟩]⟩).map
          (fun r => r.2.2.rx)
        ≠ some [99] := by
  refine ⟨by decide, by decide⟩

/-- C14, amended: for every declared length `N` greater than the capacity
`bufferSize` (payload waiting, polls before the deadline), `readBuffer`
takes only the first `bufferSize` payload bytes and copies them; the other
`N - bufferSize` payload bytes stay in the stream, ahead of the bytes
`rest` that follow the frame. -/
theorem readBuffer_consumes_capacity_only (buffer : Nat → Byte) (bufferSize timeout N : Nat)
    (l0 l1 : Byte) (payload rest tx : List Byte) (s : Tick) (pre later : List Tick)
    (ht : timeout < 4294967296) (hN : l0.val + 256 * l1.val = N)
    (hlen : payload.length = N) (hgt : bufferSize < N)
    (hpre : pre.length = bufferSize)
    (hearly : ∀ t ∈ pre, elapsed t.time s.time < timeout) :
    ∃ buffer1 : Nat → Byte,
      readBuffer buffer bufferSize timeout
          ⟨l0 :: l1 :: (payload ++ rest), tx, s :: (pre ++ later)⟩
          = some (bufferSize, buffer1,
              ⟨payload.drop bufferSize ++ rest ++ s.arrivals ++ arrivalsOf pre, tx, later⟩)
        ∧ (∀ j, j < bufferSize → payload[j]? = some (buffer1 j))
        ∧ (∀ i, bufferSize ≤ i → buffer1 i = buffer i)
        ∧ (payload.drop bufferSize).length = N - bufferSize := by
  have hmin : min N bufferSize = bufferSize := Nat.min_eq_right (Nat.le_of_lt hgt)
  obtain ⟨buffer1, hres, hcopy, hkeep⟩ := readBuffer_full buffer bufferSize timeout N l0 l1
    (payload ++ rest) tx s pre later ht hN (by omega)
    (by simp only [List.length_append]; omega) hearly
  rw [hmin] at hres hcopy hkeep
  refine ⟨buffer1, ?_, ?_, hkeep, by simp [hlen]⟩
  · rw [hres]
    have hd : (payload ++ rest ++ s.arrivals).drop bufferSize
        = payload.drop bufferSize ++ rest ++ s.arrivals := by
      rw [List.append_assoc, List.drop_append_of_le_length (by omega), List.append_assoc]
    rw [hd]
  · intro j hj
    rw [← hcopy j hj, List.append_assoc, List.getElem?_append_left (by omega)]

theorem readBuffer_consumes_capacity_only_witness :
    ∃ buffer1 : Nat → Byte,
      readBuffer (fun _ => 0) 250 100
          ⟨44 :: 1 :: (List.replicate 300 7 ++ [9]), [],
            ⟨0, []⟩ :: (List.replicate 250 ⟨1, []⟩ ++ [])⟩
          = some (250, buffer1,
              ⟨(List.replicate 300 7).drop 250 ++ [9] ++ [] ++
                arrivalsOf (List.replicate 250 ⟨1, []⟩), [], []⟩)
        ∧ (∀ j, j < 250 → (List.replicate 300 (7 : Byte))[j]? = some (buffer1 j))
        ∧ (∀ i, 250 ≤ i → buffer1 i = 0)
        ∧ ((List.replicate 300 (7 : Byte)).drop 250).length = 300 - 250 :=
  readBuffer_consumes_capacity_only (fun _ => 0) 250 100 300 44 1 (List.replicate 300 7) [9] []
    ⟨0, []⟩ (List.replicate 250 ⟨1, []⟩) [] (by decide) (by decide)
    (List.length_replicate 300 7) (by decide) (List.length_replicate 250 ⟨1, []⟩)
    (fun t hmem => by rw [List.eq_of_mem_replicate hmem]; decide)

/-! ## The command catalog -/

/-- C15: the opcodes of `Commands` are a dense, injective enumeration of
exactly `1..60` in declaration order: the codes of the enumerators, first
to last, are `1, 2, ..., 60` (so `nop = 1` and every later enumerator is
one more than the one before it), every enumerator is in the list, no two
share a code, and in particular `getVersion = 4`, `createTCP = 30`,
`addHeaderHTTP = 51`, `getResponseHeaderCountHTTP = 52`,
`espNowDeInit = 60`. -/
theorem Commands_codes_dense :
    Commands.declared.map Commands.code = List.range' 1 60
      ∧ (∀ c : Commands, c ∈ Commands.declared)
      ∧ Function.Injective Commands.code
      ∧ (∀ c : Commands, 1 ≤ c.code ∧ c.code ≤ 60)
      ∧ (∀ n : Nat, 1 ≤ n → n ≤ 60 → ∃ c : Commands, c.code = n)
      ∧ Commands.nop.code = 1 ∧ Commands.getVersion.code = 4 ∧ Commands.createTCP.code = 30
      ∧ Commands.addHeaderHTTP.code = 51 ∧ Commands.getResponseHeaderCountHTTP.code = 52
      ∧ Commands.espNowDeInit.code = 60 := by
  have hmap : Commands.declared.map Commands.code = List.range' 1 60 := by decide
  refine ⟨hmap, ?_, ?_, ?_, ?_, rfl, rfl, rfl, rfl, rfl, rfl⟩
  · intro c
    cases c <;> decide
  · intro a b h
    have hidx : a.toCtorIdx = b.toCtorIdx := by
      unfold Commands.code at h
      omega
    rw [← Commands.ofNat_toCtorIdx a, ← Commands.ofNat_toCtorIdx b, hidx]
  · intro c
    exact ⟨by unfold Commands.code; omega, Commands.code_le c⟩
  · intro n h1 h60
    have hmem : n ∈ Commands.declared.map Commands.code := by
      rw [hmap, List.mem_range']
      exact ⟨n - 1, by omega, by omega⟩
    obtain ⟨c, _, hc⟩ := List.mem_map.mp hmem
    exact ⟨c, hc⟩

/-! ## Catalog operations -/

/-- C16: for every 16-bit value `v`, when the reply to `getVersion` is the
`Data` frame (tag 4, declared length 2, payload `v`, low byte first) and
is readable at a poll before the 100 ms deadline, `getVersion` writes the
command bytes `[4, 0]` and returns `v`. -/
theorem getVersion_returns_payload (v : Nat) (hv : v < 65536) (rx tx : List Byte) (s : Tick)
    (pre : List Nat) (tk : Tick) (post : List Tick) (rest : List Byte)
    (hq : pre ≠ [] → s.arrivals = [])
    (hpre : ∀ u ∈ pre, elapsed u s.time < 100)
    (hk : elapsed tk.time s.time < 100)
    (hw : s.arrivals ++ tk.arrivals
      = 4 :: 0 :: 2 :: 0 :: toByte (v % 256) :: toByte (v / 256) :: rest) :
    getVersion ⟨rx, tx, s :: (idleTicks pre ++ tk :: post)⟩
      = some (v, ⟨rest, tx ++ [4, 0], post⟩) := by
  have hresp := getResponse_word_gen 100 (by decide) [] (tx ++ [4, 0]) s pre tk post 4 0 _
    (by simpa using hq) hpre hk (by simpa using hw)
  have hcmd : sendCommand Commands.getVersion ⟨rx, tx, s :: (idleTicks pre ++ tk :: post)⟩
      = some ⟨[], tx ++ [4, 0], s :: (idleTicks pre ++ tk :: post)⟩ :=
    sendCommand_eq Commands.getVersion rx tx _
  have hdata : (⟨(4 : Byte).val + 256 * (0 : Byte).val⟩ : Response) = Response.Data := rfl
  rw [hdata] at hresp
  simp only [getVersion, hcmd, hresp, if_true, read16_cons_cons]
  have h2 : (2 : Byte).val + 256 * (0 : Byte).val = 2 := rfl
  simp only [h2, if_true, word_of_bytes v hv]

theorem getVersion_returns_payload_witness :
    getVersion ⟨[7, 7, 7], [], ⟨0, []⟩ :: (idleTicks [10, 20] ++ ⟨30, [4, 0, 2, 0, 5, 0]⟩ :: [])⟩
      = some (5, ⟨[], [] ++ [4, 0], []⟩) :=
  getVersion_returns_payload 5 (by decide) [7, 7, 7] [] ⟨0, []⟩ [10, 20]
    ⟨30, [4, 0, 2, 0, 5, 0]⟩ [] [] (fun _ => rfl) (by decide) (by decide) (by decide)

/-- C17: for every `id` (0..255), `port` (0..65535) and address without `%`
and NUL bytes, `createTCP` writes exactly the opcode 30 as a little-endian
word, the byte `id`, `port` as a little-endian word, the address bytes and
a `\n`, and then answers as `receiveOk 3000` does: `true` exactly when the
tag `Ok` is read before the 3000 ms deadline, `false` for every other word
read and on timeout. -/
theorem createTCP_frame_and_result (id port : Nat) (address : List Byte) (hid : id < 256)
    (hport : port < 65536) (haddr : ∀ b ∈ address, b.val ≠ 0 ∧ b.val ≠ 37)
    (rx tx : List Byte) (clock : List Tick) :
    createTCP id address port ⟨rx, tx, clock⟩
        = receiveOk 3000
            ⟨[], tx ++ [30, 0, toByte id, toByte (port % 256), toByte (port / 256)]
              ++ address ++ [10], clock⟩
      ∧ (toByte id).val = id ∧ (toByte (port % 256)).val = port % 256
      ∧ (toByte (port / 256)).val = port / 256
      ∧ (∀ (b : Bool) (w1 : World), createTCP id address port ⟨rx, tx, clock⟩ = some (b, w1) →
          w1.tx = tx ++ [30, 0, toByte id, toByte (port % 256), toByte (port / 256)]
              ++ address ++ [10]
            ∧ (b = true ↔
              getResponse 3000
                ⟨[], tx ++ [30, 0, toByte id, toByte (port % 256), toByte (port / 256)]
                  ++ address ++ [10], clock⟩ = some (Response.Ok, w1)))
      ∧ (∀ (s : Tick) (pre : List Nat) (tk : Tick) (post : List Tick) (t : Nat)
          (rest : List Byte),
          clock = s :: (idleTicks pre ++ tk :: post) → t < 65536 →
          (pre ≠ [] → s.arrivals = []) → (∀ u ∈ pre, elapsed u s.time < 3000) →
          elapsed tk.time s.time < 3000 →
          s.arrivals ++ tk.arrivals = toByte (t % 256) :: toByte (t / 256) :: rest →
          createTCP id address port ⟨rx, tx, clock⟩
            = some (decide (t = 1),
                ⟨rest, tx ++ [30, 0, toByte id, toByte (port % 256), toByte (port / 256)]
                  ++ address ++ [10], post⟩))
      ∧ (∀ (s : Tick) (pre : List Nat) (tk : Tick) (post : List Tick),
          clock = s :: (idleTicks pre ++ tk :: post) →
          (pre ≠ [] → s.arrivals = []) → (∀ u ∈ pre, elapsed u s.time < 3000) →
          3000 ≤ elapsed tk.time s.time →
          createTCP id address port ⟨rx, tx, clock⟩
            = some (false,
                ⟨s.arrivals ++ tk.arrivals,
                  tx ++ [30, 0, toByte id, toByte (port % 256), toByte (port / 256)]
                    ++ address ++ [10], post⟩)) := by
  have hrun : createTCP id address port ⟨rx, tx, clock⟩
      = receiveOk 3000
          ⟨[], tx ++ [30, 0, toByte id, toByte (port % 256), toByte (port / 256)]
            ++ address ++ [10], clock⟩ := by
    have hcmd : sendCommand Commands.createTCP ⟨rx, tx, clock⟩
        = some ⟨[], tx ++ [30, 0], clock⟩ := sendCommand_eq Commands.createTCP rx tx clock
    simp only [createTCP, hcmd, putc, write16_eq, Nat.mod_eq_of_lt hport]
    rw [sendString_plain address _ _ _ haddr]
    simp [List.append_assoc]
  refine ⟨hrun, toByte_val_of_lt _ hid, toByte_val_of_lt _ (Nat.mod_lt _ (by decide)),
    toByte_val_of_lt _ (by omega), ?_, ?_, ?_⟩
  · intro b w1 h
    rw [hrun] at h
    unfold receiveOk at h
    cases hg : getResponse 3000
        ⟨[], tx ++ [30, 0, toByte id, toByte (port % 256), toByte (port / 256)]
          ++ address ++ [10], clock⟩ with
    | none =>
      rw [hg] at h
      simp at h
    | some p =>
      obtain ⟨r, w2⟩ := p
      rw [hg] at h
      simp only [Option.some.injEq, Prod.mk.injEq] at h
      obtain ⟨hb, hw⟩ := h
      subst hw
      obtain ⟨_, _, htx, _⟩ := getResponse_sound 3000 _ r w2 hg
      refine ⟨htx, ?_⟩
      rw [← hb]
      simp
  · intro s pre tk post t rest hclock h16 hq hpre hk hw
    subst hclock
    rw [hrun]
    exact receiveOk_word_gen 3000 (by decide) t h16 [] _ s pre tk post rest
      (by simpa using hq) hpre hk (by simpa using hw)
  · intro s pre tk post hclock hq hpre hk
    subst hclock
    rw [hrun]
    have h := receiveOk_timeout_gen 3000 (by decide) []
      (tx ++ [30, 0, toByte id, toByte (port % 256), toByte (port / 256)] ++ address ++ [10])
      s pre tk post (by simpa using hq) hpre hk
    simpa using h

set_option maxRecDepth 4000 in
theorem createTCP_frame_and_result_witness :
    createTCP 0 (bytesOf "1.2.3.4") 80
        ⟨[9], [], ⟨0, []⟩ :: (idleTicks [100] ++ ⟨200, [1, 0]⟩ :: [])⟩
      = some (true, ⟨[], [30, 0, 0, 80, 0] ++ bytesOf "1.2.3.4" ++ [10], []⟩) := by
  have haddr : ∀ b ∈ bytesOf "1.2.3.4", b.val ≠ 0 ∧ b.val ≠ 37 := by decide
  have h := (createTCP_frame_and_result 0 80 (bytesOf "1.2.3.4") (by decide) (by decide) haddr
    [9] [] (⟨0, []⟩ :: (idleTicks [100] ++ ⟨200, [1, 0]⟩ :: []))).2.2.2.2.2.1
    ⟨0, []⟩ [100] ⟨200, [1, 0]⟩ [] 1 [] rfl (by decide) (fun _ => rfl) (by decide) (by decide)
    (by decide)
  rw [h]
  decide

/-- C18: for every pair of 16-bit halves `low`, `high`: when the reply is a
`Data` frame with declared length 4 that carries `low` and then `high`
(each low byte first) and is readable before the deadline, `getSizeHTTP`
returns the unsigned 32-bit value `high * 65536 + low` and `getRSSI`
returns the signed 32-bit reading of `high * 65536 + low`. -/
theorem halves_give_32bit_value (low high : Nat) (hl : low < 65536) (hh : high < 65536)
    (rx tx : List Byte) (s : Tick) (pre : List Nat) (tk : Tick) (post : List Tick)
    (rest : List Byte)
    (hq : pre ≠ [] → s.arrivals = [])
    (hpre : ∀ u ∈ pre, elapsed u s.time < 200)
    (hk : elapsed tk.time s.time < 200)
    (hw : s.arrivals ++ tk.arrivals
      = 4 :: 0 :: 4 :: 0 :: toByte (low % 256) :: toByte (low / 256)
          :: toByte (high % 256) :: toByte (high / 256) :: rest) :
    getSizeHTTP ⟨rx, tx, s :: (idleTicks pre ++ tk :: post)⟩
        = some (high * 65536 + low, ⟨rest, tx ++ [47, 0], post⟩)
      ∧ getRSSI ⟨rx, tx, s :: (idleTicks pre ++ tk :: post)⟩
        = some (if high * 65536 + low < 2147483648 then ((high * 65536 + low : Nat) : Int)
            else ((high * 65536 + low : Nat) : Int) - 4294967296,
            ⟨rest, tx ++ [14, 0], post⟩) := by
  have hdata : (⟨(4 : Byte).val + 256 * (0 : Byte).val⟩ : Response) = Response.Data := rfl
  have h4 : (4 : Byte).val + 256 * (0 : Byte).val = 4 := rfl
  have hne : ¬ Response.Data ≠ Response.Data := fun h => h rfl
  constructor
  · have hresp := getResponse_word_gen 300 (by decide) [] (tx ++ [47, 0]) s pre tk post 4 0 _
      (by simpa using hq) (fun u hu => Nat.lt_trans (hpre u hu) (by decide))
      (Nat.lt_trans hk (by decide)) (by simpa using hw)
    have hcmd : sendCommand Commands.getSizeHTTP ⟨rx, tx, s :: (idleTicks pre ++ tk :: post)⟩
        = some ⟨[], tx ++ [47, 0], s :: (idleTicks pre ++ tk :: post)⟩ :=
      sendCommand_eq Commands.getSizeHTTP rx tx _
    rw [hdata] at hresp
    simp only [getSizeHTTP, hcmd, hresp, hne, if_false, read16_cons_cons, h4, if_true,
      word_of_bytes low hl, word_of_bytes high hh, halves_or low high hl hh]
  · have hresp := getResponse_word_gen 200 (by decide) [] (tx ++ [14, 0]) s pre tk post 4 0 _
      (by simpa using hq) hpre hk (by simpa using hw)
    have hcmd : sendCommand Commands.getRSSI ⟨rx, tx, s :: (idleTicks pre ++ tk :: post)⟩
        = some ⟨[], tx ++ [14, 0], s :: (idleTicks pre ++ tk :: post)⟩ :=
      sendCommand_eq Commands.getRSSI rx tx _
    rw [hdata] at hresp
    have hmod : (high * 65536 + low) % 4294967296 = high * 65536 + low :=
      Nat.mod_eq_of_lt (by omega)
    simp only [getRSSI, hcmd, hresp, if_true, read16_cons_cons, h4,
      word_of_bytes low hl, word_of_bytes high hh, halves_or_u32 low high hl hh, toInt32, hmod]

theorem halves_give_32bit_value_witness :
    getSizeHTTP ⟨[], [], ⟨0, []⟩ :: (idleTicks [] ++ ⟨1, [4, 0, 4, 0, 206, 255, 255, 255]⟩ :: [])⟩
        = some (4294967246, ⟨[], [47, 0], []⟩)
      ∧ getRSSI ⟨[], [], ⟨0, []⟩ :: (idleTicks [] ++ ⟨1, [4, 0, 4, 0, 206, 255, 255, 255]⟩ :: [])⟩
        = some (-50, ⟨[], [14, 0], []⟩) :=
  halves_give_32bit_value 65486 65535 (by decide) (by decide) [] [] ⟨0, []⟩ []
    ⟨1, [4, 0, 4, 0, 206, 255, 255, 255]⟩ [] [] (fun _ => rfl) (by decide) (by decide) (by decide)

/-- C19: timeout, unexpected tag and length mismatch come back as the same
sentinel: `getVersion` returns 0 and `scanComplete` returns -1 when no tag
is readable before the deadline, when the tag read is a word `t` other
than `Data` (4), and when the tag is `Data` but the declared length `n` is
not 2; in the last case the bytes after the length field are all left in
the queue. -/
theorem sentinel_on_failure (rx tx : List Byte) (s : Tick) (pre : List Nat) (tk : Tick)
    (post : List Tick)
    (hq : pre ≠ [] → s.arrivals = [])
    (hpre : ∀ u ∈ pre, elapsed u s.time < 100) :
    (200 ≤ elapsed tk.time s.time →
        getVersion ⟨rx, tx, s :: (idleTicks pre ++ tk :: post)⟩
            = some (0, ⟨s.arrivals ++ tk.arrivals, tx ++ [4, 0], post⟩)
          ∧ scanComplete ⟨rx, tx, s :: (idleTicks pre ++ tk :: post)⟩
            = some (-1, ⟨s.arrivals ++ tk.arrivals, tx ++ [21, 0], post⟩))
      ∧ (∀ (t : Nat) (rest : List Byte), elapsed tk.time s.time < 100 → t < 65536 → t ≠ 4 →
          s.arrivals ++ tk.arrivals = toByte (t % 256) :: toByte (t / 256) :: rest →
          getVersion ⟨rx, tx, s :: (idleTicks pre ++ tk :: post)⟩
              = some (0, ⟨rest, tx ++ [4, 0], post⟩)
            ∧ scanComplete ⟨rx, tx, s :: (idleTicks pre ++ tk :: post)⟩
              = some (-1, ⟨rest, tx ++ [21, 0], post⟩))
      ∧ (∀ (n : Nat) (payload : List Byte), elapsed tk.time s.time < 100 → n < 65536 → n ≠ 2 →
          s.arrivals ++ tk.arrivals = 4 :: 0 :: toByte (n % 256) :: toByte (n / 256) :: payload →
          getVersion ⟨rx, tx, s :: (idleTicks pre ++ tk :: post)⟩
              = some (0, ⟨payload, tx ++ [4, 0], post⟩)
            ∧ scanComplete ⟨rx, tx, s :: (idleTicks pre ++ tk :: post)⟩
              = some (-1, ⟨payload, tx ++ [21, 0], post⟩)) := by
  have hcmdV : sendCommand Commands.getVersion ⟨rx, tx, s :: (idleTicks pre ++ tk :: post)⟩
      = some ⟨[], tx ++ [4, 0], s :: (idleTicks pre ++ tk :: post)⟩ :=
    sendCommand_eq Commands.getVersion rx tx _
  have hcmdS : sendCommand Commands.scanComplete ⟨rx, tx, s :: (idleTicks pre ++ tk :: post)⟩
      = some ⟨[], tx ++ [21, 0], s :: (idleTicks pre ++ tk :: post)⟩ :=
    sendCommand_eq Commands.scanComplete rx tx _
  have hpre200 : ∀ u ∈ pre, elapsed u s.time < 200 :=
    fun u hu => Nat.lt_trans (hpre u hu) (by decide)
  have hq1 : pre ≠ [] → [] ++ s.arrivals = [] := by simpa using hq
  have hErr : ¬ Response.Error = Response.Data := by decide
  refine ⟨?_, ?_, ?_⟩
  · intro hk
    have hV := getResponse_timeout_gen 100 (by decide) [] (tx ++ [4, 0]) s pre tk post hq1 hpre
      (Nat.le_trans (by decide) hk)
    have hS := getResponse_timeout_gen 200 (by decide) [] (tx ++ [21, 0]) s pre tk post hq1
      hpre200 hk
    simp only [List.nil_append] at hV hS
    constructor
    · simp only [getVersion, hcmdV, hV, hErr, if_false]
    · simp only [scanComplete, hcmdS, hS, ne_eq, hErr, not_false_eq_true, if_true]
  · intro t rest hk h16 ht4 hw
    have hV := getResponse_word_gen 100 (by decide) [] (tx ++ [4, 0]) s pre tk post _ _ rest
      hq1 hpre hk (by simpa using hw)
    have hS := getResponse_word_gen 200 (by decide) [] (tx ++ [21, 0]) s pre tk post _ _ rest
      hq1 hpre200 (Nat.lt_trans hk (by decide)) (by simpa using hw)
    rw [word_of_bytes t h16] at hV hS
    have hne : ¬ (⟨t⟩ : Response) = Response.Data := by
      simp only [Response.Data, Response.mk.injEq]
      exact ht4
    constructor
    · simp only [getVersion, hcmdV, hV, hne, if_false]
    · simp only [scanComplete, hcmdS, hS, ne_eq, hne, not_false_eq_true, if_true]
  · intro n payload hk h16 hn2 hw
    have hV := getResponse_word_gen 100 (by decide) [] (tx ++ [4, 0]) s pre tk post 4 0 _
      hq1 hpre hk (by simpa using hw)
    have hS := getResponse_word_gen 200 (by decide) [] (tx ++ [21, 0]) s pre tk post 4 0 _
      hq1 hpre200 (Nat.lt_trans hk (by decide)) (by simpa using hw)
    have hdata : (⟨(4 : Byte).val + 256 * (0 : Byte).val⟩ : Response) = Response.Data := rfl
    rw [hdata] at hV hS
    have hnn : ¬ Response.Data ≠ Response.Data := fun h => h rfl
    constructor
    · simp only [getVersion, hcmdV, hV, if_true, read16_cons_cons, word_of_bytes n h16, hn2,
        if_false]
    · simp only [scanComplete, hcmdS, hS, hnn, if_false, read16_cons_cons, word_of_bytes n h16,
        hn2]

theorem sentinel_on_failure_witness :
    (getVersion ⟨[], [], ⟨0, []⟩ :: (idleTicks [50] ++ ⟨250, [4, 0]⟩ :: [])⟩
          = some (0, ⟨[4, 0], [4, 0], []⟩)
        ∧ scanComplete ⟨[], [], ⟨0, []⟩ :: (idleTicks [50] ++ ⟨250, [4, 0]⟩ :: [])⟩
          = some (-1, ⟨[4, 0], [21, 0], []⟩))
      ∧ (getVersion ⟨[], [], ⟨0, []⟩ :: (idleTicks [50] ++ ⟨60, [4, 0, 3, 0, 7, 8, 9]⟩ :: [])⟩
          = some (0, ⟨[7, 8, 9], [4, 0], []⟩)
        ∧ scanComplete ⟨[], [], ⟨0, []⟩ :: (idleTicks [50] ++ ⟨60, [4, 0, 3, 0, 7, 8, 9]⟩ :: [])⟩
          = some (-1, ⟨[7, 8, 9], [21, 0], []⟩)) :=
  ⟨(sentinel_on_failure [] [] ⟨0, []⟩ [50] ⟨250, [4, 0]⟩ [] (fun _ => rfl) (by decide)).1
      (by decide),
    (sentinel_on_failure [] [] ⟨0, []⟩ [50] ⟨60, [4, 0, 3, 0, 7, 8, 9]⟩ [] (fun _ => rfl)
      (by decide)).2.2 3 [7, 8, 9] (by decide) (by decide) (by decide) (by decide)⟩

/-- C20 (the code departs from it): the header documents
`@retval false - failure` for `getSoftAPConfig`, but the code returns
`true` whatever happens: on a silent line (both `receiveString` calls time
out) and after an `Error` tag it returns `true` with two empty texts, and
no run returns `false`. -/
theorem getSoftAPConfig_always_true :
    getSoftAPConfig ⟨[], [], idleTicks [0, 100, 250, 300, 600]⟩
        = some (true, [], [], ⟨[], [24, 0], []⟩)
      ∧ getSoftAPConfig ⟨[], [], [⟨0, []⟩, ⟨10, [2, 0]⟩, ⟨20, []⟩, ⟨300, []⟩]⟩
        = some (true, [], [], ⟨[], [24, 0], []⟩)
      ∧ (∀ (w w1 : World) (b : Bool) (ssid passphrase : List Byte),
          getSoftAPConfig w = some (b, ssid, passphrase, w1) → b = true) := by
  refine ⟨by decide, by decide, ?_⟩
  intro w w1 b ssid passphrase h
  unfold getSoftAPConfig at h
  cases h0 : sendCommand Commands.getSoftAPConfig w with
  | none => simp [h0] at h
  | some w2 =>
    cases h1 : receiveString 200 w2 with
    | none => simp [h0, h1] at h
    | some p1 =>
      cases h2 : receiveString 200 p1.2 with
      | none => simp [h0, h1, h2] at h
      | some p2 =>
        simp only [h0, h1, h2, Option.some.injEq, Prod.mk.injEq] at h
        exact h.1.symm

/-! ## What the helpers leave alone -/

/-- The call `read16` changes only the inbound queue. -/
theorem read16_frame (w w1 : World) (v : Nat) (h : read16 w = some (v, w1)) :
    w1.tx = w.tx ∧ w1.clock = w.clock := by
  obtain ⟨rx, tx, clock⟩ := w
  cases rx with
  | nil => simp [read16, getc] at h
  | cons b0 rest =>
    cases rest with
    | nil => simp [read16, getc] at h
    | cons b1 rest =>
      rw [read16_cons_cons] at h
      simp only [Option.some.injEq, Prod.mk.injEq] at h
      obtain ⟨_, hw⟩ := h
      subst hw
      exact ⟨rfl, rfl⟩

/-- The call `sendString` only appends to the outbound stream. -/
theorem sendString_frame (text : List Byte) (w w1 : World) (h : sendString text w = some w1) :
    ∃ out : List Byte, w1 = ⟨w.rx, w.tx ++ out, w.clock⟩ := by
  unfold sendString printf at h
  cases hf : formatOutput text with
  | none => simp [hf] at h
  | some out =>
    simp only [hf, Option.some.injEq] at h
    subst h
    exact ⟨out ++ [toByte 10], by simp [putc]⟩

/-- The helper `receiveOk` leaves the outbound stream alone. -/
theorem receiveOk_frame (timeout : Nat) (w w1 : World) (b : Bool)
    (h : receiveOk timeout w = some (b, w1)) : w1.tx = w.tx := by
  unfold receiveOk at h
  cases hg : getResponse timeout w with
  | none => simp [hg] at h
  | some p =>
    obtain ⟨r, w2⟩ := p
    simp only [hg, Option.some.injEq, Prod.mk.injEq] at h
    obtain ⟨_, hw⟩ := h
    subst hw
    obtain ⟨_, _, htx, _⟩ := getResponse_sound timeout w r w2 hg
    exact htx

/-! ## Opcodes written by the catalog operations -/

/-- C21 (the code departs from it): `getSSID` should write its own opcode
`Commands::getSSID` (13), the bytes `[13, 0]`.  The code writes
`Commands::getLocalIP` (15), the bytes `[15, 0]`, exactly as `getLocalIP`
does, and then returns `receiveString(200)`; the enumerator `getSSID` is
written by no operation. -/
theorem getSSID_writes_getLocalIP_opcode (rx tx : List Byte) (clock : List Tick) :
    getSSID ⟨rx, tx, clock⟩ = receiveString 200 ⟨[], tx ++ [15, 0], clock⟩
      ∧ getSSID ⟨rx, tx, clock⟩ = getLocalIP ⟨rx, tx, clock⟩
      ∧ Commands.getLocalIP.code = 15 ∧ Commands.getSSID.code = 13
      ∧ (tx ++ [15, 0] ≠ tx ++ [13, 0])
      ∧ getSSID ⟨[], [], [⟨0, []⟩, ⟨1, [3, 0, 2, 0, 104, 105]⟩, ⟨2, []⟩, ⟨3, []⟩]⟩
          = some (bytesOf "hi", ⟨[], [15, 0], []⟩) := by
  have hcmd : sendCommand Commands.getLocalIP ⟨rx, tx, clock⟩ = some ⟨[], tx ++ [15, 0], clock⟩ :=
    sendCommand_eq Commands.getLocalIP rx tx clock
  refine ⟨by simp only [getSSID, hcmd], rfl, rfl, rfl, ?_, by decide⟩
  intro h
  have := List.append_cancel_left h
  exact absurd this (by decide)

/-- C22: `getResponseHeaderCountHTTP` writes the add-header opcode: the
command bytes it emits are `[51, 0]`, those of `Commands::addHeaderHTTP`,
the same command word `addHeaderHTTP` writes first, and not the bytes
`[52, 0]` of `Commands::getResponseHeaderCountHTTP`; nothing else is
written by it. -/
theorem getResponseHeaderCountHTTP_writes_addHeader_opcode (rx tx : List Byte)
    (clock : List Tick) :
    sendCommand Commands.addHeaderHTTP ⟨rx, tx, clock⟩ = some ⟨[], tx ++ [51, 0], clock⟩
      ∧ (∀ (v : Nat) (w1 : World),
          getResponseHeaderCountHTTP ⟨rx, tx, clock⟩ = some (v, w1) → w1.tx = tx ++ [51, 0])
      ∧ (∀ (name value : List Byte) (b : Bool) (w1 : World),
          addHeaderHTTP name value ⟨rx, tx, clock⟩ = some (b, w1) →
          ∃ more : List Byte, w1.tx = tx ++ [51, 0] ++ more)
      ∧ Commands.addHeaderHTTP.code = 51 ∧ Commands.getResponseHeaderCountHTTP.code = 52
      ∧ tx ++ [51, 0] ≠ tx ++ [52, 0]
      ∧ getResponseHeaderCountHTTP ⟨[], [], [⟨0, []⟩, ⟨1, [4, 0, 4, 0, 3, 0, 0, 0]⟩]⟩
          = some (3, ⟨[], [51, 0], []⟩)
      ∧ addHeaderHTTP (bytesOf "A") (bytesOf "b") ⟨[], [], [⟨0, []⟩, ⟨1, [1, 0]⟩]⟩
          = some (true, ⟨[], [51, 0, 65, 10, 98, 10], []⟩) := by
  have hcmd : sendCommand Commands.addHeaderHTTP ⟨rx, tx, clock⟩
      = some ⟨[], tx ++ [51, 0], clock⟩ := sendCommand_eq Commands.addHeaderHTTP rx tx clock
  refine ⟨hcmd, ?_, ?_, rfl, rfl, ?_, by decide, by decide⟩
  · intro v w1 h
    simp only [getResponseHeaderCountHTTP, hcmd] at h
    cases hg : getResponse 300 ⟨[], tx ++ [51, 0], clock⟩ with
    | none => simp [hg] at h
    | some p =>
      obtain ⟨r, w2⟩ := p
      obtain ⟨_, _, htx2, _⟩ := getResponse_sound 300 _ r w2 hg
      have htx2a : w2.tx = tx ++ [51, 0] := htx2
      simp only [hg] at h
      by_cases hr : r ≠ Response.Data
      · rw [if_pos hr] at h
        simp only [Option.some.injEq, Prod.mk.injEq] at h
        rw [← h.2]; exact htx2a
      · rw [if_neg hr] at h
        cases h3 : read16 w2 with
        | none => simp [h3] at h
        | some p3 =>
          obtain ⟨n, w3⟩ := p3
          have htx3 := (read16_frame w2 w3 n h3).1
          simp only [h3] at h
          by_cases hn : n = 4
          · simp only [hn, if_true] at h
            cases h4 : read16 w3 with
            | none => simp [h4] at h
            | some p4 =>
              obtain ⟨low, w4⟩ := p4
              have htx4 := (read16_frame w3 w4 low h4).1
              simp only [h4] at h
              cases h5 : read16 w4 with
              | none => simp [h5] at h
              | some p5 =>
                obtain ⟨high, w5⟩ := p5
                have htx5 := (read16_frame w4 w5 high h5).1
                simp only [h5, Option.some.injEq, Prod.mk.injEq] at h
                rw [← h.2, htx5, htx4, htx3]; exact htx2a
          · simp only [hn, if_false, Option.some.injEq, Prod.mk.injEq] at h
            rw [← h.2, htx3]; exact htx2a
  · intro name value b w1 h
    simp only [addHeaderHTTP, hcmd] at h
    cases h1 : sendString name ⟨[], tx ++ [51, 0], clock⟩ with
    | none => simp [h1] at h
    | some w2 =>
      obtain ⟨out1, hw2⟩ := sendString_frame name _ w2 h1
      simp only [h1] at h
      cases h2 : sendString value w2 with
      | none => simp [h2] at h
      | some w3 =>
        obtain ⟨out2, hw3⟩ := sendString_frame value _ w3 h2
        simp only [h2] at h
        have htx := receiveOk_frame 200 w3 w1 b h
        refine ⟨out1 ++ out2, ?_⟩
        rw [htx, hw3, hw2]
        simp [List.append_assoc]
  · intro h
    have := List.append_cancel_left h
    exact absurd this (by decide)

/-! ## Order of the deadline test and the stream test -/

/-- C23: the deadline is tested before the stream at every poll:
`getResponse 0` returns `Error` for every stream content, also when a
complete tag is readable, and reads no byte; and at any poll whose clock
sample has `now - start >= timeout` the loop returns `Error` with the
queue as it is, whatever it holds. -/
theorem getResponse_deadline_before_stream :
    (∀ (rx tx : List Byte) (s t : Tick) (post : List Tick),
        getResponse 0 ⟨rx, tx, s :: t :: post⟩
          = some (Response.Error, ⟨rx ++ s.arrivals ++ t.arrivals, tx, post⟩))
      ∧ (∀ (timeout : Nat) (rx tx : List Byte) (s : Tick) (pre : List Nat) (tk : Tick)
          (post : List Tick), timeout < 4294967296 →
          (pre ≠ [] → rx ++ s.arrivals = []) → (∀ u ∈ pre, elapsed u s.time < timeout) →
          timeout ≤ elapsed tk.time s.time →
          getResponse timeout ⟨rx, tx, s :: (idleTicks pre ++ tk :: post)⟩
            = some (Response.Error, ⟨rx ++ s.arrivals ++ tk.arrivals, tx, post⟩))
      ∧ (∀ (timeout start n : Nat) (rx tx : List Byte) (tk : Tick) (post : List Tick),
          timeout ≤ elapsed (tk.time % 4294967296) start →
          getResponseLoop timeout start (n + 1) ⟨rx, tx, tk :: post⟩
            = some (Response.Error, ⟨rx ++ tk.arrivals, tx, post⟩))
      ∧ getResponse 0 ⟨[1, 0], [], [⟨5, []⟩, ⟨5, []⟩]⟩ = some (Response.Error, ⟨[1, 0], [], []⟩)
      ∧ getResponse 10 ⟨[], [], [⟨0, []⟩, ⟨4, []⟩, ⟨10, [1, 0]⟩]⟩
          = some (Response.Error, ⟨[1, 0], [], []⟩) := by
  refine ⟨?_, ?_, ?_, by decide, by decide⟩
  · intro rx tx s t post
    exact getResponse_timeout_gen 0 (by decide) rx tx s [] t post (fun h => absurd rfl h)
      (fun u hu => by simp at hu) (Nat.zero_le _)
  · intro timeout rx tx s pre tk post ht hq hpre hk
    exact getResponse_timeout_gen timeout ht rx tx s pre tk post hq hpre hk
  · intro timeout start n rx tx tk post hk
    exact getResponseLoop_deadline timeout start n rx tx tk post hk

/-- C24: `getResponse` takes exactly two inbound bytes when it resolves with
a tag and none when it times out.  So after `receiveOk` has returned
`false` because a `String` or `Data` tag arrived, the length field and
the body of that frame (the bytes `rest` behind the tag) are still in the
queue; the flush of the next `sendCommand` removes them. -/
theorem getResponse_takes_two_or_none :
    (∀ (timeout : Nat) (w w1 : World) (r : Response), getResponse timeout w = some (r, w1) →
        ∃ used : List Tick, w.clock = used ++ w1.clock ∧ w1.tx = w.tx
          ∧ ((r = Response.Error ∧ w.rx ++ arrivalsOf used = w1.rx)
            ∨ ∃ b0 b1 : Byte, w.rx ++ arrivalsOf used = b0 :: b1 :: w1.rx
                ∧ r = ⟨b0.val + 256 * b1.val⟩))
      ∧ (∀ (timeout : Nat) (rx tx : List Byte) (s : Tick) (pre : List Nat) (tk : Tick)
          (post : List Tick) (b0 b1 : Byte) (rest : List Byte), timeout < 4294967296 →
          (pre ≠ [] → rx ++ s.arrivals = []) → (∀ u ∈ pre, elapsed u s.time < timeout) →
          elapsed tk.time s.time < timeout →
          rx ++ s.arrivals ++ tk.arrivals = b0 :: b1 :: rest →
          getResponse timeout ⟨rx, tx, s :: (idleTicks pre ++ tk :: post)⟩
            = some (⟨b0.val + 256 * b1.val⟩, ⟨rest, tx, post⟩))
      ∧ (∀ (timeout : Nat) (rx tx : List Byte) (s : Tick) (pre : List Nat) (tk : Tick)
          (post : List Tick), timeout < 4294967296 →
          (pre ≠ [] → rx ++ s.arrivals = []) → (∀ u ∈ pre, elapsed u s.time < timeout) →
          timeout ≤ elapsed tk.time s.time →
          getResponse timeout ⟨rx, tx, s :: (idleTicks pre ++ tk :: post)⟩
            = some (Response.Error, ⟨rx ++ s.arrivals ++ tk.arrivals, tx, post⟩))
      ∧ (∀ (timeout t : Nat) (rx tx : List Byte) (s : Tick) (pre : List Nat) (tk : Tick)
          (post : List Tick) (rest : List Byte) (command : Commands),
          timeout < 4294967296 → (t = 3 ∨ t = 4) →
          (pre ≠ [] → rx ++ s.arrivals = []) → (∀ u ∈ pre, elapsed u s.time < timeout) →
          elapsed tk.time s.time < timeout →
          rx ++ s.arrivals ++ tk.arrivals = toByte (t % 256) :: toByte (t / 256) :: rest →
          receiveOk timeout ⟨rx, tx, s :: (idleTicks pre ++ tk :: post)⟩
              = some (false, ⟨rest, tx, post⟩)
            ∧ sendCommand command ⟨rest, tx, post⟩
              = some ⟨[], tx ++ [toByte (command.code % 256), toByte (command.code / 256)],
                  post⟩)
      ∧ receiveOk 100 ⟨[], [], [⟨0, []⟩, ⟨1, [3, 0, 2, 0, 104, 105]⟩, ⟨2, []⟩]⟩
          = some (false, ⟨[2, 0, 104, 105], [], [⟨2, []⟩]⟩) := by
  refine ⟨?_, ?_, ?_, ?_, by decide⟩
  · intro timeout w w1 r h
    exact getResponse_sound timeout w r w1 h
  · intro timeout rx tx s pre tk post b0 b1 rest ht hq hpre hk hw
    exact getResponse_word_gen timeout ht rx tx s pre tk post b0 b1 rest hq hpre hk hw
  · intro timeout rx tx s pre tk post ht hq hpre hk
    exact getResponse_timeout_gen timeout ht rx tx s pre tk post hq hpre hk
  · intro timeout t rx tx s pre tk post rest command ht h34 hq hpre hk hw
    have h16 : t < 65536 := by omega
    have hne : t ≠ 1 := by omega
    refine ⟨?_, sendCommand_eq command rest tx post⟩
    rw [receiveOk_word_gen timeout ht t h16 rx tx s pre tk post rest hq hpre hk hw]
    simp [hne]

/-! ## The 32-bit clock -/

/-- C25: the elapsed time is `(now - start) mod 2^32`, also when the clock
has wrapped (`now < start`), and each of the three polling loops
(`getResponse`, `receiveString`, `readBuffer`) takes the deadline as
elapsed exactly when this value is `>= timeout`: then the iteration ends
the loop, and otherwise it goes on to read.  The runs at the end cross a
wrap of the clock. -/
theorem elapsed_is_modular :
    (∀ now start : Nat, now < 4294967296 → start < 4294967296 →
        ((elapsed now start : Nat) : Int) = ((now : Int) - (start : Int)) % 4294967296
          ∧ (now < start → elapsed now start = now + 4294967296 - start)
          ∧ (start ≤ now → elapsed now start = now - start))
      ∧ (∀ (timeout start n : Nat) (rx tx : List Byte) (tk : Tick) (post : List Tick)
          (b0 b1 : Byte) (rest : List Byte),
          (timeout ≤ elapsed (tk.time % 4294967296) start →
            getResponseLoop timeout start (n + 1) ⟨rx, tx, tk :: post⟩
              = some (Response.Error, ⟨rx ++ tk.arrivals, tx, post⟩))
          ∧ (elapsed (tk.time % 4294967296) start < timeout →
            rx ++ tk.arrivals = b0 :: b1 :: rest →
            getResponseLoop timeout start (n + 1) ⟨rx, tx, tk :: post⟩
              = some (⟨b0.val + 256 * b1.val⟩, ⟨rest, tx, post⟩)))
      ∧ (∀ (timeout size start n : Nat) (result rx tx : List Byte) (tk : Tick)
          (post : List Tick),
          (timeout ≤ elapsed (tk.time % 4294967296) start →
            receiveStringLoop timeout size start (n + 1) result ⟨rx, tx, tk :: post⟩
              = some (result, ⟨rx ++ tk.arrivals, tx, post⟩))
          ∧ (elapsed (tk.time % 4294967296) start < timeout →
            (result ++ stripNul (rx ++ tk.arrivals)).length < size →
            receiveStringLoop timeout size start (n + 1) result ⟨rx, tx, tk :: post⟩
              = receiveStringLoop timeout size start n (result ++ stripNul (rx ++ tk.arrivals))
                  ⟨[], tx, post⟩))
      ∧ (∀ (timeout limit start n index : Nat) (buffer : Nat → Byte) (rx tx : List Byte)
          (tk : Tick) (post : List Tick) (c : Byte) (rest : List Byte), index < limit →
          (timeout ≤ elapsed (tk.time % 4294967296) start →
            readBufferLoop timeout limit start (n + 1) index buffer ⟨rx, tx, tk :: post⟩
              = some (index, buffer, ⟨rx ++ tk.arrivals, tx, post⟩))
          ∧ (elapsed (tk.time % 4294967296) start < timeout → rx ++ tk.arrivals = c :: rest →
            readBufferLoop timeout limit start (n + 1) index buffer ⟨rx, tx, tk :: post⟩
              = readBufferLoop timeout limit start n (index + 1)
                  (Function.update buffer index c) ⟨rest, tx, post⟩))
      ∧ getResponse 50
          ⟨[], [], [⟨4294967290, []⟩, ⟨4294967295, []⟩, ⟨3, []⟩, ⟨43, [1, 0]⟩, ⟨44, []⟩]⟩
          = some (Response.Ok, ⟨[], [], [⟨44, []⟩]⟩)
      ∧ getResponse 50 ⟨[], [], idleTicks [4294967290, 3, 43, 44, 45]⟩
          = some (Response.Error, ⟨[], [], idleTicks [45]⟩)
      ∧ receiveString 50
          ⟨[], [], [⟨4294967200, []⟩, ⟨4294967201, [3, 0, 2, 0]⟩, ⟨4294967290, []⟩,
            ⟨3, [104]⟩, ⟨43, [105]⟩, ⟨44, []⟩]⟩
          = some (bytesOf "hi", ⟨[], [], [⟨44, []⟩]⟩)
      ∧ (readBuffer (fun _ => 0) 8 50
          ⟨[2, 0, 7, 8], [], [⟨4294967290, []⟩, ⟨3, []⟩, ⟨43, []⟩]⟩).map (fun r => (r.1, r.2.2))
          = some (2, ⟨[], [], []⟩)
      ∧ (readBuffer (fun _ => 0) 8 50
          ⟨[2, 0, 7, 8], [], [⟨4294967290, []⟩, ⟨3, []⟩, ⟨44, []⟩]⟩).map (fun r => (r.1, r.2.2))
          = some (1, ⟨[8], [], []⟩) := by
  refine ⟨?_, ?_, ?_, ?_, by decide, by decide, by decide, by decide, by decide⟩
  · intro now start hn hs
    unfold elapsed
    refine ⟨by omega, fun h => by omega, fun h => by omega⟩
  · intro timeout start n rx tx tk post b0 b1 rest
    exact ⟨fun hk => getResponseLoop_deadline timeout start n rx tx tk post hk,
      fun hk hw => getResponseLoop_word timeout start n rx tx tk post b0 b1 rest hk hw⟩
  · intro timeout size start n result rx tx tk post
    exact ⟨fun hk => receiveStringLoop_deadline timeout size start n result rx tx tk post hk,
      fun hk hlen => receiveStringLoop_short timeout size start n result rx tx tk post hk hlen⟩
  · intro timeout limit start n index buffer rx tx tk post c rest hi
    exact ⟨fun hk => readBufferLoop_deadline timeout limit start n index buffer rx tx tk post hi
        hk,
      fun hk hq => readBufferLoop_copy timeout limit start n index buffer rx tx tk post c rest hi
        hk hq⟩

/-! ## The two deadlines of `receiveString` -/

/-- The call `readBuffer` with timeout 0: nothing is copied. -/
theorem readBuffer_timeout_zero (buffer : Nat → Byte) (bufferSize : Nat) (l0 l1 : Byte)
    (q tx : List Byte) (s t : Tick) (post : List Tick) :
    ∃ w1 : World,
      readBuffer buffer bufferSize 0 ⟨l0 :: l1 :: q, tx, s :: t :: post⟩ = some (0, buffer, w1)
        ∧ w1.tx = tx
        ∧ ∃ used : List Tick, s :: t :: post = used ++ w1.clock ∧ w1.rx = q ++ arrivalsOf used := by
  simp only [readBuffer, read16_cons_cons, getTime_cons, Nat.zero_mod]
  generalize min (l0.val + 256 * l1.val) bufferSize = limit
  cases limit with
  | zero =>
    exact ⟨⟨q ++ s.arrivals, tx, t :: post⟩, by simp [readBufferLoop], rfl, [s], rfl,
      by simp [arrivalsOf]⟩
  | succ m =>
    refine ⟨⟨q ++ s.arrivals ++ t.arrivals, tx, post⟩, ?_, rfl, [s, t], rfl,
      by simp [arrivalsOf, List.append_assoc]⟩
    exact readBufferLoop_deadline 0 (m + 1) _ m 0 buffer _ tx t post (Nat.succ_pos m)
      (Nat.zero_le _)

/-- C27: `readBuffer` never writes outside the buffer of the caller: the
count `k` it returns is at most `min N bufferSize`, the buffer positions
from `k` on, so all positions from `min N bufferSize` on, are unchanged;
with timeout 0 or with `bufferSize` 0 it stores nothing and returns 0,
and still takes the two length bytes (and no payload byte). -/
theorem readBuffer_stays_in_bounds (buffer : Nat → Byte) (bufferSize timeout N : Nat)
    (l0 l1 : Byte) (q tx : List Byte) (clock : List Tick)
    (ht : timeout < 4294967296) (hN : l0.val + 256 * l1.val = N) :
    (∀ (k : Nat) (buffer1 : Nat → Byte) (w1 : World),
        readBuffer buffer bufferSize timeout ⟨l0 :: l1 :: q, tx, clock⟩ = some (k, buffer1, w1) →
        k ≤ min N bufferSize ∧ (∀ i, k ≤ i → buffer1 i = buffer i)
          ∧ (∀ i, min N bufferSize ≤ i → buffer1 i = buffer i)
          ∧ ∃ (used : List Tick) (copied : List Byte),
              clock = used ++ w1.clock ∧ q ++ arrivalsOf used = copied ++ w1.rx
                ∧ copied.length = k)
      ∧ (∀ (s t : Tick) (post : List Tick), clock = s :: t :: post →
          ∃ w1 : World,
            readBuffer buffer bufferSize 0 ⟨l0 :: l1 :: q, tx, clock⟩ = some (0, buffer, w1)
              ∧ w1.tx = tx
              ∧ ∃ used : List Tick, clock = used ++ w1.clock ∧ w1.rx = q ++ arrivalsOf used)
      ∧ (∀ (s : Tick) (later : List Tick), clock = s :: later →
          readBuffer buffer 0 timeout ⟨l0 :: l1 :: q, tx, clock⟩
            = some (0, buffer, ⟨q ++ s.arrivals, tx, later⟩)) := by
  refine ⟨?_, ?_, ?_⟩
  · intro k buffer1 w1 h
    obtain ⟨hk, used, copied, hclock, hstream, hlen, _, _, hkeep, _⟩ :=
      readBuffer_sound buffer bufferSize timeout N l0 l1 q tx clock ht hN k buffer1 w1 h
    exact ⟨hk, hkeep, fun i hi => hkeep i (Nat.le_trans hk hi), used, copied, hclock, hstream,
      hlen⟩
  · intro s t post hclock
    subst hclock
    exact readBuffer_timeout_zero buffer bufferSize l0 l1 q tx s t post
  · intro s later hclock
    subst hclock
    simp [readBuffer, read16_cons_cons, getTime_cons, readBufferLoop]

theorem readBuffer_stays_in_bounds_witness :
    (∃ w1 : World,
        readBuffer (fun _ => 9) 4 0 ⟨[3, 0, 10, 11, 12], [], [⟨0, []⟩, ⟨0, []⟩, ⟨1, []⟩]⟩
            = some (0, (fun _ => 9), w1)
          ∧ w1.tx = []
          ∧ ∃ used : List Tick, [⟨0, []⟩, ⟨0, []⟩, ⟨1, []⟩] = used ++ w1.clock
              ∧ w1.rx = [10, 11, 12] ++ arrivalsOf used)
      ∧ readBuffer (fun _ => 9) 0 100 ⟨[3, 0, 10, 11, 12], [], [⟨0, []⟩, ⟨0, []⟩, ⟨1, []⟩]⟩
          = some (0, (fun _ => 9), ⟨[10, 11, 12] ++ [], [], [⟨0, []⟩, ⟨1, []⟩]⟩) :=
  ⟨(readBuffer_stays_in_bounds (fun _ => 9) 4 100 3 3 0 [10, 11, 12] []
      [⟨0, []⟩, ⟨0, []⟩, ⟨1, []⟩] (by decide) (by decide)).2.1 ⟨0, []⟩ ⟨0, []⟩ [⟨1, []⟩] rfl,
    (readBuffer_stays_in_bounds (fun _ => 9) 0 100 3 3 0 [10, 11, 12] []
      [⟨0, []⟩, ⟨0, []⟩, ⟨1, []⟩] (by decide) (by decide)).2.2 ⟨0, []⟩ [⟨0, []⟩, ⟨1, []⟩] rfl⟩

/-! ## ESP-NOW -/

/-- The flag of `espNowReceive` on a port where the command has been
written: `true` exactly when the tag is `Data` and `readBuffer` copied at
least one byte. -/
theorem espNowReceive_flag (info : Nat → Byte) (rx tx : List Byte) (clock : List Tick)
    (b : Bool) (info1 : Nat → Byte) (w1 : World)
    (h : espNowReceive info ⟨rx, tx, clock⟩ = some (b, info1, w1)) :
    b = true ↔ ∃ (w2 : World) (k : Nat),
      getResponse 300 ⟨[], tx ++ [59, 0], clock⟩ = some (Response.Data, w2)
        ∧ readBuffer info sizeofEspNowReceiveInfo 200 w2 = some (k, info1, w1) ∧ 1 ≤ k := by
  have hcmd : sendCommand Commands.espNowReceive ⟨rx, tx, clock⟩
      = some ⟨[], tx ++ [59, 0], clock⟩ := sendCommand_eq Commands.espNowReceive rx tx clock
  simp only [espNowReceive, hcmd] at h
  cases hg : getResponse 300 ⟨[], tx ++ [59, 0], clock⟩ with
  | none => simp [hg] at h
  | some p =>
    obtain ⟨r, w2⟩ := p
    simp only [hg] at h
    by_cases hr : r ≠ Response.Data
    · rw [if_pos hr] at h
      simp only [Option.some.injEq, Prod.mk.injEq] at h
      obtain ⟨hb, _, _⟩ := h
      subst hb
      constructor
      · intro hf
        simp at hf
      · rintro ⟨w3, k, hd, _, _⟩
        simp only [Option.some.injEq, Prod.mk.injEq] at hd
        exact absurd hd.1 hr
    · rw [if_neg hr] at h
      have hrd : r = Response.Data := not_not.mp hr
      subst hrd
      cases hb : readBuffer info sizeofEspNowReceiveInfo 200 w2 with
      | none => simp [hb] at h
      | some p3 =>
        obtain ⟨count, info2, w3⟩ := p3
        simp only [hb, Option.some.injEq, Prod.mk.injEq] at h
        obtain ⟨hflag, hinfo, hw⟩ := h
        subst hflag hinfo hw
        constructor
        · intro hf
          have hc : count ≠ 0 := by simpa using hf
          exact ⟨w2, count, rfl, hb, Nat.pos_of_ne_zero hc⟩
        · rintro ⟨w4, k, hd, hrb, hk⟩
          simp only [Option.some.injEq, Prod.mk.injEq, true_and] at hd
          subst hd
          rw [hb] at hrb
          simp only [Option.some.injEq, Prod.mk.injEq] at hrb
          have hck : count = k := hrb.1
          simp only [decide_eq_true_eq]
          omega

/-- C28: `espNowReceive` returns `true` if and only if a `Data` tag is read
before the 300 ms deadline and the `readBuffer` call that follows copies
at least one byte.  A `Data` frame with declared length 0 gives `false`; a
frame shorter than `sizeof(EspNowReceiveInfo)`, and a frame cut short by
the 200 ms deadline after its first byte, give `true`. -/
theorem espNowReceive_true_iff_copied (info : Nat → Byte) (rx tx : List Byte)
    (clock : List Tick) :
    (∀ (b : Bool) (info1 : Nat → Byte) (w1 : World),
        espNowReceive info ⟨rx, tx, clock⟩ = some (b, info1, w1) →
        (b = true ↔ ∃ (w2 : World) (k : Nat),
          getResponse 300 ⟨[], tx ++ [59, 0], clock⟩ = some (Response.Data, w2)
            ∧ readBuffer info sizeofEspNowReceiveInfo 200 w2 = some (k, info1, w1) ∧ 1 ≤ k))
      ∧ (∀ (s : Tick) (pre : List Nat) (tk s2 : Tick) (later : List Tick) (rest : List Byte),
          clock = s :: (idleTicks pre ++ tk :: s2 :: later) →
          (pre ≠ [] → s.arrivals = []) → (∀ u ∈ pre, elapsed u s.time < 300) →
          elapsed tk.time s.time < 300 →
          s.arrivals ++ tk.arrivals = 4 :: 0 :: 0 :: 0 :: rest →
          espNowReceive info ⟨rx, tx, clock⟩
            = some (false, info, ⟨rest ++ s2.arrivals, tx ++ [59, 0], later⟩))
      ∧ (∀ (s : Tick) (pre : List Nat) (tk s2 : Tick) (pre2 later : List Tick) (l0 l1 : Byte)
          (body : List Byte) (N : Nat),
          clock = s :: (idleTicks pre ++ tk :: s2 :: (pre2 ++ later)) →
          (pre ≠ [] → s.arrivals = []) → (∀ u ∈ pre, elapsed u s.time < 300) →
          elapsed tk.time s.time < 300 →
          s.arrivals ++ tk.arrivals = 4 :: 0 :: l0 :: l1 :: body →
          l0.val + 256 * l1.val = N → 1 ≤ N →
          pre2.length = min N sizeofEspNowReceiveInfo →
          min N sizeofEspNowReceiveInfo ≤ (body ++ s2.arrivals).length →
          (∀ t ∈ pre2, elapsed t.time s2.time < 200) →
          ∃ info1 : Nat → Byte,
            espNowReceive info ⟨rx, tx, clock⟩
              = some (true, info1,
                  ⟨(body ++ s2.arrivals).drop (min N sizeofEspNowReceiveInfo) ++ arrivalsOf pre2,
                    tx ++ [59, 0], later⟩))
      ∧ (espNowReceive (fun _ => 0)
            ⟨[], [], [⟨0, []⟩, ⟨1, [4, 0, 3, 0, 7, 8, 9]⟩, ⟨2, []⟩, ⟨3, []⟩, ⟨4, []⟩, ⟨5, []⟩]⟩).map
            (fun r => (r.1, r.2.2))
          = some (true, ⟨[], [59, 0], []⟩)
      ∧ (espNowReceive (fun _ => 0)
            ⟨[], [], [⟨0, []⟩, ⟨1, [4, 0, 3, 0, 7, 8, 9]⟩, ⟨2, []⟩, ⟨3, []⟩, ⟨300, []⟩]⟩).map
            (fun r => (r.1, r.2.2))
          = some (true, ⟨[8, 9], [59, 0], []⟩)
      ∧ (espNowReceive (fun _ => 0)
            ⟨[], [], [⟨0, []⟩, ⟨1, [4, 0, 3, 0, 7, 8, 9]⟩, ⟨2, []⟩, ⟨300, []⟩]⟩).map
            (fun r => (r.1, r.2.2))
          = some (false, ⟨[7, 8, 9], [59, 0], []⟩)
      ∧ (espNowReceive (fun _ => 0) ⟨[], [], [⟨0, []⟩, ⟨1, [1, 0]⟩, ⟨2, []⟩]⟩).map
            (fun r => (r.1, r.2.2))
          = some (false, ⟨[], [59, 0], [⟨2, []⟩]⟩) := by
  have hdata : (⟨(4 : Byte).val + 256 * (0 : Byte).val⟩ : Response) = Response.Data := rfl
  have hnn : ¬ Response.Data ≠ Response.Data := fun h => h rfl
  refine ⟨fun b info1 w1 h => espNowReceive_flag info rx tx clock b info1 w1 h, ?_, ?_,
    by decide, by decide, by decide, by decide⟩
  · intro s pre tk s2 later rest hclock hq hpre hk hw
    subst hclock
    have hcmd : sendCommand Commands.espNowReceive
        ⟨rx, tx, s :: (idleTicks pre ++ tk :: s2 :: later)⟩
        = some ⟨[], tx ++ [59, 0], s :: (idleTicks pre ++ tk :: s2 :: later)⟩ :=
      sendCommand_eq Commands.espNowReceive rx tx _
    have hresp := getResponse_word_gen 300 (by decide) [] (tx ++ [59, 0]) s pre tk
      (s2 :: later) 4 0 _ (by simpa using hq) hpre hk (by simpa using hw)
    rw [hdata] at hresp
    simp only [espNowReceive, hcmd, hresp, hnn, if_false]
    simp [readBuffer, read16_cons_cons, getTime_cons, readBufferLoop]
  · intro s pre tk s2 pre2 later l0 l1 body N hclock hq hpre hk hw hN h1 hlen havail hearly
    subst hclock
    have hcmd : sendCommand Commands.espNowReceive
        ⟨rx, tx, s :: (idleTicks pre ++ tk :: s2 :: (pre2 ++ later))⟩
        = some ⟨[], tx ++ [59, 0], s :: (idleTicks pre ++ tk :: s2 :: (pre2 ++ later))⟩ :=
      sendCommand_eq Commands.espNowReceive rx tx _
    have hresp := getResponse_word_gen 300 (by decide) [] (tx ++ [59, 0]) s pre tk
      (s2 :: (pre2 ++ later)) 4 0 _ (by simpa using hq) hpre hk (by simpa using hw)
    rw [hdata] at hresp
    obtain ⟨info1, hres, _, _⟩ := readBuffer_full info sizeofEspNowReceiveInfo 200 N l0 l1 body
      (tx ++ [59, 0]) s2 pre2 later (by decide) hN hlen havail hearly
    refine ⟨info1, ?_⟩
    have hpos : min N sizeofEspNowReceiveInfo ≠ 0 := by
      have h260 : sizeofEspNowReceiveInfo = 260 := rfl
      omega
    simp only [espNowReceive, hcmd, hresp, hnn, if_false, hres, ne_eq, hpos, not_false_eq_true,
      decide_True]

/-- Converting the value of a byte back gives the byte. -/
theorem toByte_val_self (b : Byte) : toByte b.val = b := by
  apply Fin.ext
  simp [toByte, Nat.mod_eq_of_lt b.isLt]

/-- The loop of `espNowSend` writes the buffer bytes `i`, `i + 1`, ... up to
`size`, in order. -/
theorem espNowSendLoop_eq (buffer : Nat → Byte) (size : Nat) :
    ∀ (fuel i : Nat) (rx tx : List Byte) (clock : List Tick), i + fuel = size →
      espNowSendLoop buffer size fuel i ⟨rx, tx, clock⟩
        = ⟨rx, tx ++ (List.range' i fuel).map buffer, clock⟩ := by
  intro fuel
  induction fuel with
  | zero =>
    intro i rx tx clock _
    simp [espNowSendLoop]
  | succ n ih =>
    intro i rx tx clock h
    have hi : i < size := by omega
    simp only [espNowSendLoop, hi, if_true, putc, toByte_val_self]
    rw [ih (i + 1) rx _ clock (by omega)]
    simp [List.range'_succ, List.append_assoc]

/-- C29: in `espNowSend` the declared length field is `size mod 65536` (the
narrowing of `write16`) while `size` payload bytes are written.  For a MAC
address text (no `%`, no NUL) the frame is the opcode 58 as a word, the
mac bytes and `\n`, the word `size mod 65536`, then the buffer bytes
`0 .. size-1` in order; for `size <= 65535` the declared length is `size`,
and for `size >= 65536` it differs from the number of payload bytes. -/
theorem espNowSend_declared_length (mac : List Byte) (buffer : Nat → Byte) (size : Nat)
    (hmac : ∀ b ∈ mac, b.val ≠ 0 ∧ b.val ≠ 37) (hsize : size < 4294967296)
    (rx tx : List Byte) (clock : List Tick) :
    espNowSend mac buffer size ⟨rx, tx, clock⟩
        = receiveOk 1000
            ⟨[], tx ++ [58, 0] ++ mac ++ [10]
              ++ [toByte (size % 65536 % 256), toByte (size % 65536 / 256)]
              ++ (List.range size).map buffer, clock⟩
      ∧ (toByte (size % 65536 % 256)).val + 256 * (toByte (size % 65536 / 256)).val
          = size % 65536
      ∧ ((List.range size).map buffer).length = size
      ∧ (size ≤ 65535 → size % 65536 = size)
      ∧ (65536 ≤ size → size % 65536 ≠ size) := by
  refine ⟨?_, word_of_bytes _ (Nat.mod_lt _ (by decide)), by simp, fun h => by omega,
    fun h => by omega⟩
  have hcmd : sendCommand Commands.espNowSend ⟨rx, tx, clock⟩ = some ⟨[], tx ++ [58, 0], clock⟩ :=
    sendCommand_eq Commands.espNowSend rx tx clock
  simp only [espNowSend, hcmd, Nat.mod_eq_of_lt hsize, sendString_plain mac _ _ _ hmac,
    write16_eq]
  rw [espNowSendLoop_eq buffer size size 0 _ _ _ (by omega), List.range_eq_range']

set_option maxRecDepth 4000 in
theorem espNowSend_declared_length_witness :
    espNowSend (bytesOf "AA:BB") (fun i => toByte (i + 7)) 3
        ⟨[], [], [⟨0, []⟩, ⟨1, [1, 0]⟩]⟩
      = some (true, ⟨[], [58, 0] ++ bytesOf "AA:BB" ++ [10, 3, 0, 7, 8, 9], []⟩) := by
  have hmac : ∀ b ∈ bytesOf "AA:BB", b.val ≠ 0 ∧ b.val ≠ 37 := by decide
  have h := (espNowSend_declared_length (bytesOf "AA:BB") (fun i => toByte (i + 7)) 3 hmac
    (by decide) [] [] [⟨0, []⟩, ⟨1, [1, 0]⟩]).1
  rw [h]
  decide

end ESP8266
